import Mathlib

/-!
# Verification of the `ddb` LSM storage engine (package `lib/common/lsm`)

This development gives a shallow embedding, in Lean 4, of the record codec
(`node.go`: `LsmNode.WriteTo` / `LsmNode.ReadFrom`), the write-ahead-log replay
(`Lsm.restoreFromLog`), the SST merge procedure (`mergeSsTable`), and the
sequential behaviour of the engine operations (`Lsm.Set`, `Lsm.Get`,
`Lsm.Delete`, compaction, merge and reopen), together with proofs and
refutations of the specification's claims about them.

Conventions:
* Go byte strings (keys, values, file contents) are `List Nat` with every
  element `< 256`.
* Go's `int32`/`int64` fields are modelled as `Nat` with explicit `% 2 ^ 32`
  truncation where the code truncates, and with an explicit check modelling
  Go's panic on `make([]byte, n)` for negative `n`.
* Fallible Go code returning `error` is modelled with `Except`.
* All definitions are executable; file I/O is replaced by explicit byte lists
  and record lists threaded through the functions.
-/

namespace Ddb

/-- Errors of the `lsm` package together with the distinguished I/O conditions
of the Go standard library that its control flow inspects.
`eof` is `io.EOF`, `unexpectedEOF` is `io.ErrUnexpectedEOF` (returned by
`binary.Read` for a partial header), `badMagic` is `ErrLsmNodeBadMagic`,
`badChecksum` is `ErrLsmNodeBadCheckSum`, `negLen` models the Go runtime panic
of `make([]byte, n)` with a negative `int32` length, and `ioFault` stands for
an arbitrary unclassified I/O error. -/
inductive LsmErr where
  | eof
  | unexpectedEOF
  | badMagic
  | badChecksum
  | negLen
  | emptyKey
  | emptyValue
  | notFound
  | deleted
  | ioFault
  deriving DecidableEq, Repr

/-- Equality of `Except` results is decidable when it is on both sides. -/
instance {ε α : Type} [DecidableEq ε] [DecidableEq α] : DecidableEq (Except ε α)
  | .error a, .error b => decidable_of_iff (a = b) ⟨fun h => h ▸ rfl, Except.error.inj⟩
  | .error _, .ok _ => isFalse Except.noConfusion
  | .ok _, .error _ => isFalse Except.noConfusion
  | .ok a, .ok b => decidable_of_iff (a = b) ⟨fun h => h ▸ rfl, Except.ok.inj⟩

/-- `2 ^ 32`, the modulus of Go's 32-bit header fields. -/
def U32 : Nat := 4294967296

/-- A byte string: every element is `< 256`. -/
def BytesWF (l : List Nat) : Prop := ∀ b ∈ l, b < 256

instance : DecidablePred BytesWF := fun l =>
  inferInstanceAs (Decidable (∀ b ∈ l, b < 256))

/-! ## SHA-256 (`crypto/sha256`)

`LsmNode.WriteTo` / `ReadFrom` checksum each record with SHA-256.  The hash is
implemented here bit-for-bit (FIPS 180-4) over byte lists so that the codec is
fully executable. -/

/-- 32-bit rotate right. -/
def rotr32 (n x : Nat) : Nat := ((x >>> n) ||| (x <<< (32 - n))) % U32

/-- 32-bit logical shift right. -/
def shr32 (n x : Nat) : Nat := x >>> n

/-- Big-endian bytes of a 32-bit word. -/
def be32 (w : Nat) : List Nat :=
  [(w >>> 24) % 256, (w >>> 16) % 256, (w >>> 8) % 256, w % 256]

/-- Big-endian bytes of a 64-bit word. -/
def be64 (w : Nat) : List Nat :=
  [(w >>> 56) % 256, (w >>> 48) % 256, (w >>> 40) % 256, (w >>> 32) % 256,
   (w >>> 24) % 256, (w >>> 16) % 256, (w >>> 8) % 256, w % 256]

/-- Decode four big-endian bytes into a word. -/
def be32dec (l : List Nat) : Nat :=
  l.getD 0 0 * 16777216 + l.getD 1 0 * 65536 + l.getD 2 0 * 256 + l.getD 3 0

/-- SHA-256 round constants. -/
def sha256K : List Nat :=
  [1116352408, 1899447441, 3049323471, 3921009573, 961987163, 1508970993,
   2453635748, 2870763221, 3624381080, 310598401, 607225278, 1426881987,
   1925078388, 2162078206, 2614888103, 3248222580, 3835390401, 4022224774,
   264347078, 604807628, 770255983, 1249150122, 1555081692, 1996064986,
   2554220882, 2821834349, 2952996808, 3210313671, 3336571891, 3584528711,
   113926993, 338241895, 666307205, 773529912, 1294757372, 1396182291,
   1695183700, 1986661051, 2177026350, 2456956037, 2730485921, 2820302411,
   3259730800, 3345764771, 3516065817, 3600352804, 4094571909, 275423344,
   430227734, 506948616, 659060556, 883997877, 958139571, 1322822218,
   1537002063, 1747873779, 1955562222, 2024104815, 2227730452, 2361852424,
   2428436474, 2756734187, 3204031479, 3329325298]

/-- The eight working variables of the SHA-256 compression function. -/
structure Sha256State where
  a : Nat
  b : Nat
  c : Nat
  d : Nat
  e : Nat
  f : Nat
  g : Nat
  h : Nat
  deriving Repr, DecidableEq

/-- SHA-256 initial hash value. -/
def sha256Init : Sha256State :=
  ⟨1779033703, 3144134277, 1013904242, 2773480762,
   1359893119, 2600822924, 528734635, 1541459225⟩

/-- Small sigma 0. -/
def ssig0 (x : Nat) : Nat := rotr32 7 x ^^^ rotr32 18 x ^^^ shr32 3 x

/-- Small sigma 1. -/
def ssig1 (x : Nat) : Nat := rotr32 17 x ^^^ rotr32 19 x ^^^ shr32 10 x

/-- Big sigma 0. -/
def bsig0 (x : Nat) : Nat := rotr32 2 x ^^^ rotr32 13 x ^^^ rotr32 22 x

/-- Big sigma 1. -/
def bsig1 (x : Nat) : Nat := rotr32 6 x ^^^ rotr32 11 x ^^^ rotr32 25 x

/-- Extend the 16 message words of a block to 64 schedule words
(the argument counts how many words are still to be appended). -/
def sha256Extend (ws : List Nat) : Nat → List Nat
  | 0 => ws
  | n + 1 =>
    let t := ws.length
    let w := (ssig1 (ws.getD (t - 2) 0) + ws.getD (t - 7) 0 +
              ssig0 (ws.getD (t - 15) 0) + ws.getD (t - 16) 0) % U32
    sha256Extend (ws ++ [w]) n

/-- One SHA-256 round. -/
def sha256Round (s : Sha256State) (kw : Nat × Nat) : Sha256State :=
  let ch := (s.e &&& s.f) ^^^ ((U32 - 1 - s.e) &&& s.g)
  let maj := (s.a &&& s.b) ^^^ (s.a &&& s.c) ^^^ (s.b &&& s.c)
  let t1 := (s.h + bsig1 s.e + ch + kw.1 + kw.2) % U32
  let t2 := (bsig0 s.a + maj) % U32
  ⟨(t1 + t2) % U32, s.a, s.b, s.c, (s.d + t1) % U32, s.e, s.f, s.g⟩

/-- Decode a 64-byte block into its 16 big-endian message words. -/
def sha256Words (block : List Nat) : Nat → List Nat
  | 0 => []
  | n + 1 => be32dec (block.take 4) :: sha256Words (block.drop 4) n

/-- Compress one 64-byte block into the running hash state. -/
def sha256Block (s : Sha256State) (block : List Nat) : Sha256State :=
  let w := sha256Extend (sha256Words block 16) 48
  let t := (sha256K.zip w).foldl sha256Round s
  ⟨(s.a + t.a) % U32, (s.b + t.b) % U32, (s.c + t.c) % U32, (s.d + t.d) % U32,
   (s.e + t.e) % U32, (s.f + t.f) % U32, (s.g + t.g) % U32, (s.h + t.h) % U32⟩

/-- Split a (padded) message into 64-byte blocks; the fuel is an upper bound on
the number of blocks so that the recursion is structural. -/
def sha256Blocks (fuel : Nat) (l : List Nat) : List (List Nat) :=
  match fuel with
  | 0 => []
  | n + 1 => if l.isEmpty then [] else l.take 64 :: sha256Blocks n (l.drop 64)

/-- SHA-256 padding: `0x80`, zeros to 56 mod 64, then the bit length
big-endian in 8 bytes. -/
def sha256Pad (msg : List Nat) : List Nat :=
  msg ++ 0x80 :: List.replicate ((119 - msg.length % 64) % 64) 0 ++
    be64 (8 * msg.length)

/-- SHA-256 digest of a byte list, as 32 bytes. -/
def sha256Bytes (msg : List Nat) : List Nat :=
  let padded := sha256Pad msg
  let s := (sha256Blocks padded.length padded).foldl sha256Block sha256Init
  be32 s.a ++ be32 s.b ++ be32 s.c ++ be32 s.d ++
  be32 s.e ++ be32 s.f ++ be32 s.g ++ be32 s.h

/-! ## The record codec (`node.go`)

A record is `LsmNode`: a key, a value and a deletion flag.  `WriteTo`
serializes `LsmNodeOnDiskHeader` (magic, deleted flag, key length, value
length, all little-endian `int32`, then the 32-byte SHA-256 checksum of the
first sixteen header bytes followed by the key and value bytes) and then the
raw key and value bytes.  `ReadFrom` reads the header with `binary.Read`,
checks the magic, reads the key and value with single `f.Read` calls,
recomputes the checksum and compares. -/

/-- `LsmNode` of `node.go`: one record of the memtable, the WAL or an SST. -/
structure Rec where
  key : List Nat
  value : List Nat
  deleted : Bool
  deriving DecidableEq, Repr

/-- `LsmNodeMagic = 0x4CBDABDA`. -/
def MAGIC : Nat := 0x4CBDABDA

/-- Little-endian bytes of a 32-bit word (`binary.Write` with
`binary.LittleEndian` on an `int32`). -/
def le32 (w : Nat) : List Nat :=
  [w % 256, (w / 256) % 256, (w / 65536) % 256, (w / 16777216) % 256]

/-- Decode four little-endian bytes (`binary.Read` of an `int32`, taken as the
unsigned 32-bit pattern). -/
def dec32 (l : List Nat) : Nat :=
  l.getD 0 0 + l.getD 1 0 * 256 + l.getD 2 0 * 65536 + l.getD 3 0 * 16777216

/-- The first sixteen header bytes of a record: magic, deleted flag, key
length, value length, each a little-endian `int32` (Go's `int32(len …)`
truncates to 32 bits). -/
def hdr16 (r : Rec) : List Nat :=
  le32 MAGIC ++ le32 (if r.deleted then 1 else 0) ++
  le32 (r.key.length % U32) ++ le32 (r.value.length % U32)

/-- The bytes covered by the record checksum: the first sixteen header bytes,
then the key bytes, then the value bytes. -/
def ckMsg (r : Rec) : List Nat := hdr16 r ++ r.key ++ r.value

/-- `LsmNode.WriteTo`: the encoded bytes of one record — the 48-byte header
(16 fixed bytes and the 32-byte SHA-256 checksum) followed by the raw key and
value bytes. -/
def encodeNode (r : Rec) : List Nat :=
  hdr16 r ++ sha256Bytes (ckMsg r) ++ r.key ++ r.value

/-- One Go `f.Read` into a fresh zeroed buffer of length `n`:
with an empty buffer it returns immediately; at end of file with a non-empty
buffer it returns `io.EOF`; otherwise it fills as much of the buffer as the
stream allows (a short read leaves the zero tail in place and is NOT an
error, since `ReadFrom` ignores the returned count). -/
def readSingle (n : Nat) (s : List Nat) : Except LsmErr (List Nat × List Nat) :=
  if n = 0 then .ok ([], s)
  else if s.isEmpty then .error .eof
  else .ok (s.take n ++ List.replicate (n - s.length) 0, s.drop n)

/-- `LsmNode.ReadFrom` on a byte stream.  `binary.Read` of the 48-byte header
uses `io.ReadFull` semantics (`io.EOF` on an empty stream,
`io.ErrUnexpectedEOF` on a partial header); the magic is checked; the key and
value are read with single `f.Read` calls after `make([]byte, length)` (which
panics — modelled `negLen` — when the `int32` length is negative); finally the
SHA-256 checksum of the first sixteen header bytes and the two buffers is
compared against the stored checksum.  Returns the decoded record and the
unread rest of the stream. -/
def decodeNode (s : List Nat) : Except LsmErr (Rec × List Nat) :=
  if s.isEmpty then .error .eof
  else if s.length < 48 then .error .unexpectedEOF
  else if dec32 ((s.take 48).take 4) ≠ MAGIC then .error .badMagic
  else if 2 ^ 31 ≤ dec32 (((s.take 48).drop 8).take 4) then .error .negLen
  else
    match readSingle (dec32 (((s.take 48).drop 8).take 4)) (s.drop 48) with
    | .error e => .error e
    | .ok (keyBuf, rest2) =>
      if 2 ^ 31 ≤ dec32 (((s.take 48).drop 12).take 4) then .error .negLen
      else
        match readSingle (dec32 (((s.take 48).drop 12).take 4)) rest2 with
        | .error e => .error e
        | .ok (valBuf, rest3) =>
          if (s.take 48).drop 16 ≠
              sha256Bytes ((s.take 48).take 16 ++ keyBuf ++ valBuf) then
            .error .badChecksum
          else
            .ok (⟨keyBuf, valBuf, dec32 (((s.take 48).drop 4).take 4) != 0⟩, rest3)

/-- A record the engine can produce: byte-string key and value whose lengths
fit a non-negative `int32`. -/
def RecWF (r : Rec) : Prop :=
  BytesWF r.key ∧ BytesWF r.value ∧ r.key.length < 2 ^ 31 ∧ r.value.length < 2 ^ 31

instance : DecidablePred RecWF := fun r => by unfold RecWF; infer_instance

/-- Flip bit `i` of a byte list (byte `i / 8`, bit `i % 8`). -/
def flipBit (i : Nat) (s : List Nat) : List Nat :=
  s.take (i / 8) ++ [s.getD (i / 8) 0 ^^^ (1 <<< (i % 8))] ++ s.drop (i / 8 + 1)

/-- Two distinct byte strings with the same SHA-256 digest. -/
def Sha256Collision : Prop :=
  ∃ m1 m2 : List Nat, m1 ≠ m2 ∧ sha256Bytes m1 = sha256Bytes m2

/-! ## The engine (`node.go`, newest variant: `Lsm`)

The sequential behaviour of `Set` / `Get` / `Delete`, the memtable, the WAL,
compaction, the SST merge and reopen.  Go strings compare bytewise, so keys
and values are byte lists ordered by `keyLt`.  The memtable
(`map[string]*LsmNode`) is an association list with unique keys; the table set
(`map[int64]*SsTable`) is an association list from `seq` to the records of the
SST file.  The WAL is kept at record granularity here; the byte-level replay
of `restoreFromLog` is modelled separately below. -/

/-- Go's bytewise string comparison `a < b`. -/
def keyLt : List Nat → List Nat → Bool
  | [], [] => false
  | [], _ :: _ => true
  | _ :: _, [] => false
  | a :: as, b :: bs => if a < b then true else if b < a then false else keyLt as bs

/-- The memtable: `nodeMap`, an association list with unique keys. -/
abbrev Memtable := List Rec

/-- Memtable lookup `nodeMap[key]`. -/
def findRec (m : List Rec) (k : List Nat) : Option Rec :=
  m.find? (fun r => r.key == k)

/-- `Lsm.Set`'s memtable update: an existing node gets `node.value = value`
(its `deleted` flag is left as it was — faithfully to the source); a missing
key gets a fresh live node. -/
def memSet (m : Memtable) (k v : List Nat) : Memtable :=
  if m.any (fun r => r.key == k) then
    m.map (fun r => if r.key == k then { r with value := v } else r)
  else m ++ [⟨k, v, false⟩]

/-- `Lsm.Delete`'s memtable update: an existing node gets `node.deleted = true`
(keeping its value); a missing key gets a fresh tombstone. -/
def memDel (m : Memtable) (k : List Nat) : Memtable :=
  if m.any (fun r => r.key == k) then
    m.map (fun r => if r.key == k then { r with deleted := true } else r)
  else m ++ [⟨k, [], true⟩]

/-- `restoreFromLog`'s memtable update `nodeMap[n.key] = n`: the whole node is
replaced (or inserted). -/
def memReplace (m : Memtable) (n : Rec) : Memtable :=
  if m.any (fun r => r.key == n.key) then
    m.map (fun r => if r.key == n.key then n else r)
  else m ++ [n]

/-- An SST, reduced to the sequence of records of its file. -/
abbrev SsTable := List Rec

/-- Modelled from the spec: `SsTable.Get` of the repository's current
`sstable.go`, which is absent from the source snapshot (the snapshot's
historical variants return `ErrNotFound` for a tombstone and never the
`ErrDeleted` that `Lsm.lookupSsTables` inspects, so they cannot be the code
this engine links against).  Per spec §4.2: the record whose key equals `k`
determines the result — its value, or `Deleted` if the tombstone flag is set —
and a key not present gives `NotFound`.  The `[minKey, maxKey]` fence and the
sparse index only bound the scan on a sorted file; they do not change the
result, and are omitted. -/
def stGet (st : SsTable) (k : List Nat) : Except LsmErr (List Nat) :=
  match st.find? (fun r => r.key == k) with
  | some r => if r.deleted then .error .deleted else .ok r.value
  | none => .error .notFound

/-- Insert into a descending-sorted list. -/
def insertDesc (x : Nat) : List Nat → List Nat
  | [] => [x]
  | y :: ys => if y ≤ x then x :: y :: ys else y :: insertDesc x ys

/-- Sort `seq` values in descending order (`sort.Slice` with `>` in
`lookupSsTables`). -/
def sortDesc (l : List Nat) : List Nat := l.foldr insertDesc []

/-- The table set: association list from `seq` to SST records. -/
abbrev TableSet := List (Nat × SsTable)

/-- `ssTableMap[id]`. -/
def findSst (ts : TableSet) (id : Nat) : Option SsTable :=
  (ts.find? (fun p => p.1 == id)).map (fun p => p.2)

/-- The `seq` values present in the table set. -/
def sstIds (ts : TableSet) : List Nat := ts.map (fun p => p.1)

/-- One `st.Get` of the lookup loop, keyed by `seq`. -/
def stGetById (ts : TableSet) (k : List Nat) (id : Nat) : Except LsmErr (List Nat) :=
  match findSst ts id with
  | some st => stGet st k
  | none => .error .notFound

/-- The body of `Lsm.lookupSsTables`' loop over the per-SST `Get` results, in
iteration order: a value wins; `ErrDeleted` becomes `ErrNotFound` and stops;
`ErrNotFound` continues with the older tables; any other error propagates;
an exhausted loop returns `ErrNotFound`. -/
def procResults : List (Except LsmErr (List Nat)) → Except LsmErr (List Nat)
  | [] => .error .notFound
  | r :: rs =>
    match r with
    | .ok v => .ok v
    | .error .deleted => .error .notFound
    | .error .notFound => procResults rs
    | .error e => .error e

/-- `Lsm.lookupSsTables`: sort the `seq` values in descending order and run the
loop. -/
def lookupSsTables (ts : TableSet) (k : List Nat) : Except LsmErr (List Nat) :=
  procResults ((sortDesc (sstIds ts)).map (stGetById ts k))

/-- The sequential state of an `Lsm`: memtable, table set, WAL (at record
granularity) and the `time` counter from which `seq` values are drawn. -/
structure LsmState where
  mem : Memtable
  ssts : TableSet
  wal : List Rec
  time : Nat
  deriving Repr, DecidableEq

/-- `NewLsm` over an empty directory. -/
def initLsm : LsmState := ⟨[], [], [], 0⟩

/-- The outcome of `logSet` / `logDelete` (`WriteTo` on the WAL file followed
by `File.Sync`): either both succeed, or the pair fails with an I/O error.
On failure the record is not counted as appended (a partially written record
is invisible at this record-level granularity). -/
inductive WalOutcome where
  | ok
  | fail (e : LsmErr)
  deriving DecidableEq, Repr

/-- `Lsm.Get`: validate the key, consult the memtable (a live node returns its
value, a tombstone returns `ErrNotFound`), otherwise consult the SSTs. -/
def getOp (s : LsmState) (k : List Nat) : Except LsmErr (List Nat) :=
  if k.isEmpty then .error .emptyKey
  else
    match findRec s.mem k with
    | some nd => if nd.deleted then .error .notFound else .ok nd.value
    | none => lookupSsTables s.ssts k

/-- `Lsm.Set`: validate the key and value, append a live record to the WAL and
sync (failure returns the error with the state untouched), then upsert the
memtable.  The asynchronous compaction signal is modelled as the separate
`compactOp` step. -/
def setOp (s : LsmState) (k v : List Nat) (o : WalOutcome) :
    Except LsmErr Unit × LsmState :=
  if k.isEmpty then (.error .emptyKey, s)
  else if v.isEmpty then (.error .emptyValue, s)
  else
    match o with
    | .fail e => (.error e, s)
    | .ok =>
      (.ok (), { s with wal := s.wal ++ [⟨k, v, false⟩], mem := memSet s.mem k v })

/-- `Lsm.Delete`: validate the key, append a tombstone record to the WAL and
sync (failure returns the error with the state untouched), then upsert a
tombstone into the memtable. -/
def delOp (s : LsmState) (k : List Nat) (o : WalOutcome) :
    Except LsmErr Unit × LsmState :=
  if k.isEmpty then (.error .emptyKey, s)
  else
    match o with
    | .fail e => (.error e, s)
    | .ok =>
      (.ok (), { s with wal := s.wal ++ [⟨k, [], true⟩], mem := memDel s.mem k })

/-- Sort memtable records ascending by key (insertion step). -/
def insertRecAsc (r : Rec) : List Rec → List Rec
  | [] => [r]
  | x :: xs => if keyLt r.key x.key then r :: x :: xs else x :: insertRecAsc r xs

/-- Modelled from the spec: the record sequence `newSsTable` writes for a
memtable — the repository's current `sstable.go` is absent from the source
snapshot (spec §4.2 construction: collect the keys, sort ascending, and write
every record in that order, tombstones included; spec §9 fixes this against
the snapshot's historical variant that drops or asserts on tombstones).
Writing the entries in ascending key order is the same as sorting them by key,
since the keys of a memtable are unique. -/
def flushRecs (m : Memtable) : List Rec := m.foldr insertRecAsc []

/-- `Lsm.compact`: write the memtable as a new SST at `seq = time + 1`,
register it, clear the memtable, and (when flushing outside of recovery)
truncate the WAL.  The newest engine variant has no emptiness check. -/
def compactOp (s : LsmState) (logTruncate : Bool) : LsmState :=
  { mem := [],
    ssts := s.ssts ++ [(s.time + 1, flushRecs s.mem)],
    wal := if logTruncate then [] else s.wal,
    time := s.time + 1 }

/-- `mergeSsTable`'s streaming two-way merge of the record sequences of `prev`
(older) and `curr` (newer): on equal keys `curr`'s record is written and both
advance; otherwise the smaller key is written and that side advances; an
exhausted side drains the other.  Records are written as read — tombstones
included (the current `sstable.go`, absent from the snapshot, has no tombstone
assertion; spec §4.3). -/
def mergeRecs : List Rec → List Rec → List Rec
  | [], [] => []
  | [], c :: cs => c :: mergeRecs [] cs
  | p :: ps, [] => p :: mergeRecs ps []
  | p :: ps, c :: cs =>
    if p.key = c.key then c :: mergeRecs ps cs
    else if keyLt p.key c.key then p :: mergeRecs ps (c :: cs)
    else c :: mergeRecs (p :: ps) cs

/-- `Lsm.mergeSsTables` (one step): with at least two SSTs, merge the two with
the largest `seq` values (`prev` the smaller of the two, `curr` the larger)
into a new SST at `seq = time + 1` and drop the inputs. -/
def mergeOp (s : LsmState) : LsmState :=
  match sortDesc (sstIds s.ssts) with
  | currId :: prevId :: _ =>
    match findSst s.ssts prevId, findSst s.ssts currId with
    | some prevSt, some currSt =>
      { s with
        ssts := (s.ssts.filter (fun p => p.1 ≠ prevId ∧ p.1 ≠ currId)) ++
          [(s.time + 1, mergeRecs prevSt currSt)],
        time := s.time + 1 }
    | _, _ => s
  | _ => s

/-- Replay a record sequence into a memtable (`restoreFromLog`'s loop at
record granularity). -/
def replayRecs (wal : List Rec) (m : Memtable) : Memtable :=
  wal.foldl memReplace m

/-- Close followed by `OpenLsm` over the same directory: the surviving
persistent state is the SST files and the WAL.  `openSsTables` restores the
table set and `time = max seq`; `restoreFromLog` replays the WAL into a fresh
memtable and force-flushes it (`compact(true, false)`, which in the newest
variant flushes unconditionally); then the WAL is reopened with `O_TRUNC`. -/
def reopenLsm (s : LsmState) : LsmState :=
  let t := (sstIds s.ssts).foldr max 0
  let replayed := replayRecs s.wal []
  { mem := [],
    ssts := s.ssts ++ [(t + 1, flushRecs replayed)],
    wal := [],
    time := t + 1 }

/-- The schedulable steps of the sequential engine model. -/
inductive Op where
  | set (k v : List Nat)
  | del (k : List Nat)
  | flush
  | merge
  | reopen
  deriving Repr

/-- Apply one step (WAL writes succeeding). -/
def stepOp (s : LsmState) : Op → LsmState
  | .set k v => (setOp s k v .ok).2
  | .del k => (delOp s k .ok).2
  | .flush => compactOp s true
  | .merge => mergeOp s
  | .reopen => reopenLsm s

/-- Run a sequence of steps from the fresh store. -/
def runOps (ops : List Op) : LsmState := ops.foldl stepOp initLsm

/-! ## Byte-level WAL replay (`restoreFromLog` with `ReadFrom`) -/

/-- The loop of `Lsm.restoreFromLog` over a byte stream, with fuel (each
successful `ReadFrom` consumes at least 48 bytes, so `s.length + 1` steps
always suffice): `io.EOF` ends replay successfully; any other error is
returned and fails the open; a decoded record replaces its key's node. -/
def replayAux : Nat → List Nat → Memtable → Except LsmErr Memtable
  | 0, _, _ => .error .unexpectedEOF
  | fuel + 1, s, m =>
    match decodeNode s with
    | .error .eof => .ok m
    | .error e => .error e
    | .ok (r, rest) => replayAux fuel rest (memReplace m r)

/-- `Lsm.restoreFromLog` on the bytes of the WAL file: the resulting memtable,
or the error that fails `OpenLsm`. -/
def replayWal (s : List Nat) (m : Memtable) : Except LsmErr Memtable :=
  replayAux (s.length + 1) s m

/-- The byte contents of a WAL holding the encodings of `ns` in order. -/
def walBytes (ns : List Rec) : List Nat := (ns.map encodeNode).flatten

/-! ## Codec lemmas: shape of an encoding and the decode round trip -/

theorem isEmpty_false_of_ne_nil {l : List Nat} (h : l ≠ []) : l.isEmpty = false := by
  cases l with
  | nil => cases h rfl
  | cons a as => rfl

theorem le32_len (w : Nat) : (le32 w).length = 4 := rfl

theorem hdr16_len (r : Rec) : (hdr16 r).length = 16 := by
  cases r.deleted <;> simp [hdr16, le32]

theorem sha256Bytes_len (m : List Nat) : (sha256Bytes m).length = 32 := by
  simp [sha256Bytes, be32]

theorem ckMsg_take16 (r : Rec) : (ckMsg r).take 16 = hdr16 r :=
  List.take_left' (hdr16_len r)

theorem encodeNode_eq (r : Rec) :
    encodeNode r = (hdr16 r ++ sha256Bytes (ckMsg r)) ++ (r.key ++ r.value) := by
  simp [encodeNode]

theorem encodeNode_len (r : Rec) :
    (encodeNode r).length = 48 + r.key.length + r.value.length := by
  simp [encodeNode, hdr16_len, sha256Bytes_len]
  omega

theorem encodeNode_take16 (r : Rec) : (encodeNode r).take 16 = hdr16 r :=
  List.take_left' (hdr16_len r)

theorem hdrPart_len (r : Rec) : (hdr16 r ++ sha256Bytes (ckMsg r)).length = 48 := by
  simp [hdr16_len, sha256Bytes_len]

theorem encodeNode_take48 (r : Rec) :
    (encodeNode r).take 48 = hdr16 r ++ sha256Bytes (ckMsg r) := by
  rw [encodeNode_eq]
  exact List.take_left' (hdrPart_len r)

theorem encodeNode_drop48 (r : Rec) : (encodeNode r).drop 48 = r.key ++ r.value := by
  rw [encodeNode_eq]
  exact List.drop_left' (hdrPart_len r)

theorem hdr16_take4 (r : Rec) : (hdr16 r).take 4 = le32 MAGIC :=
  List.take_left' (le32_len MAGIC)

theorem hdr16_drop4 (r : Rec) :
    (hdr16 r).drop 4 = le32 (if r.deleted then 1 else 0) ++
      (le32 (r.key.length % U32) ++ le32 (r.value.length % U32)) := by
  simp only [hdr16, ← List.append_assoc]
  simp only [List.append_assoc]
  exact List.drop_left' (le32_len MAGIC)

theorem hdr16_window4 (r : Rec) :
    ((hdr16 r).drop 4).take 4 = le32 (if r.deleted then 1 else 0) := by
  rw [hdr16_drop4]
  exact List.take_left' (le32_len _)

theorem hdr16_drop8 (r : Rec) :
    (hdr16 r).drop 8 = le32 (r.key.length % U32) ++ le32 (r.value.length % U32) := by
  have h : (8 : Nat) = 4 + 4 := rfl
  rw [h, ← List.drop_drop, hdr16_drop4]
  exact List.drop_left' (le32_len _)

theorem hdr16_window8 (r : Rec) :
    ((hdr16 r).drop 8).take 4 = le32 (r.key.length % U32) := by
  rw [hdr16_drop8]
  exact List.take_left' (le32_len _)

theorem hdr16_window12 (r : Rec) :
    ((hdr16 r).drop 12).take 4 = le32 (r.value.length % U32) := by
  have h : (12 : Nat) = 8 + 4 := rfl
  rw [h, ← List.drop_drop, hdr16_drop8]
  rw [List.drop_left' (le32_len _)]
  simp [le32]

theorem dec32_le32 (w : Nat) (h : w < U32) : dec32 (le32 w) = w := by
  simp only [dec32, le32, List.getD_cons_zero, List.getD_cons_succ]
  simp only [U32] at h
  omega

theorem readSingle_exact (n : Nat) (a t : List Nat) (h : a.length = n) :
    readSingle n (a ++ t) = .ok (a, t) := by
  unfold readSingle
  by_cases hn : n = 0
  · subst hn
    have : a = [] := List.eq_nil_of_length_eq_zero h
    simp [this]
  · have hne : a ++ t ≠ [] := by
      intro hc
      rcases List.append_eq_nil.mp hc with ⟨h1, _⟩
      exact hn (h ▸ h1 ▸ rfl)
    rw [if_neg hn, isEmpty_false_of_ne_nil hne]
    simp only [Bool.false_eq_true, if_false]
    rw [List.take_left' h, List.drop_left' h]
    have hz : n - (a ++ t).length = 0 := by
      simp [h.symm]
    rw [hz]
    simp

/-- The full 48-byte header of an encoding. -/
def hdrFull (r : Rec) : List Nat := hdr16 r ++ sha256Bytes (ckMsg r)

theorem hdrFull_take4 (r : Rec) : (hdrFull r).take 4 = le32 MAGIC := by
  rw [hdrFull, List.take_append_of_le_length (by rw [hdr16_len]; omega), hdr16_take4]

theorem hdrFull_drop_take (r : Rec) (n : Nat) (hn : n ≤ 16) :
    ((hdrFull r).drop n).take 4 = ((hdr16 r).drop n).take 4 ∨ 12 < n := by
  by_cases h12 : n ≤ 12
  · left
    rw [hdrFull, List.drop_append_of_le_length (by rw [hdr16_len]; omega)]
    rw [List.take_append_of_le_length (by rw [List.length_drop, hdr16_len]; omega)]
  · right; omega

theorem hdrFull_win4 (r : Rec) :
    ((hdrFull r).drop 4).take 4 = le32 (if r.deleted then 1 else 0) := by
  rcases hdrFull_drop_take r 4 (by omega) with h | h
  · rw [h, hdr16_window4]
  · omega

theorem hdrFull_win8 (r : Rec) :
    ((hdrFull r).drop 8).take 4 = le32 (r.key.length % U32) := by
  rcases hdrFull_drop_take r 8 (by omega) with h | h
  · rw [h, hdr16_window8]
  · omega

theorem hdrFull_win12 (r : Rec) :
    ((hdrFull r).drop 12).take 4 = le32 (r.value.length % U32) := by
  rcases hdrFull_drop_take r 12 (by omega) with h | h
  · rw [h, hdr16_window12]
  · omega

theorem hdrFull_take16 (r : Rec) : (hdrFull r).take 16 = hdr16 r :=
  List.take_left' (hdr16_len r)

theorem hdrFull_drop16 (r : Rec) : (hdrFull r).drop 16 = sha256Bytes (ckMsg r) :=
  List.drop_left' (hdr16_len r)

theorem decodeNode_encode_append (r : Rec) (t : List Nat) (h : RecWF r) :
    decodeNode (encodeNode r ++ t) = .ok (r, t) := by
  obtain ⟨hkw, hvw, hkl, hvl⟩ := h
  have hklU : r.key.length % U32 = r.key.length :=
    Nat.mod_eq_of_lt (lt_trans hkl (by norm_num [U32]))
  have hvlU : r.value.length % U32 = r.value.length :=
    Nat.mod_eq_of_lt (lt_trans hvl (by norm_num [U32]))
  have hlen : (encodeNode r).length = 48 + r.key.length + r.value.length :=
    encodeNode_len r
  have hlenall : (encodeNode r ++ t).length =
      48 + r.key.length + r.value.length + t.length := by
    simp [hlen]
  have hne : encodeNode r ++ t ≠ [] := by
    intro hc
    have := congrArg List.length hc
    simp [hlenall] at this
  have htk48 : (encodeNode r ++ t).take 48 = hdrFull r := by
    rw [List.take_append_of_le_length (by omega), encodeNode_take48, hdrFull]
  have hdr48 : (encodeNode r ++ t).drop 48 = r.key ++ (r.value ++ t) := by
    rw [List.drop_append_of_le_length (by omega), encodeNode_drop48]
    simp
  unfold decodeNode
  rw [isEmpty_false_of_ne_nil hne]
  simp only [Bool.false_eq_true, if_false]
  rw [if_neg (by omega)]
  rw [htk48, hdr48, hdrFull_take4]
  rw [dec32_le32 MAGIC (by norm_num [MAGIC, U32])]
  rw [if_neg (by simp)]
  rw [hdrFull_win4, hdrFull_win8, hdrFull_win12,
    dec32_le32 (r.key.length % U32) (Nat.mod_lt _ (by norm_num [U32])),
    dec32_le32 (r.value.length % U32) (Nat.mod_lt _ (by norm_num [U32])),
    hklU, hvlU, hdrFull_drop16, hdrFull_take16]
  rw [if_neg (show ¬ (2 : Nat) ^ 31 ≤ r.key.length from by omega)]
  simp only [readSingle_exact]
  rw [if_neg (show ¬ (2 : Nat) ^ 31 ≤ r.value.length from by omega)]
  simp only [ckMsg]
  rw [if_neg (fun hc => hc rfl)]
  obtain ⟨rk, rv, rd⟩ := r
  cases rd <;> simp [le32, dec32]

/-! ## WAL replay lemmas -/

theorem readSingle_rest {n : Nat} {s b rest : List Nat}
    (h : readSingle n s = .ok (b, rest)) : rest.length ≤ s.length := by
  unfold readSingle at h
  split at h
  · simp only [Except.ok.injEq, Prod.mk.injEq] at h
    rw [← h.2]
  · split at h
    · cases h
    · simp only [Except.ok.injEq, Prod.mk.injEq] at h
      rw [← h.2]
      simp

theorem decodeNode_ok_length {s : List Nat} {r : Rec} {rest : List Nat}
    (h : decodeNode s = .ok (r, rest)) : rest.length < s.length := by
  unfold decodeNode at h
  split at h
  · cases h
  · split at h
    · cases h
    · rename_i hnemp hlen
      split at h
      · cases h
      · split at h
        · cases h
        · split at h
          · cases h
          · rename_i hread1
            split at h
            · cases h
            · split at h
              · cases h
              · rename_i hread2
                split at h
                · cases h
                · simp only [Except.ok.injEq, Prod.mk.injEq] at h
                  have h1 := readSingle_rest hread1
                  have h2 := readSingle_rest hread2
                  rw [h.2] at h2
                  have h3 : (List.drop 48 s).length = s.length - 48 := List.length_drop 48 s
                  omega

theorem replayAux_fuel_eq (f : Nat) : ∀ (s : List Nat) (m : Memtable),
    s.length < f → replayAux f s m = replayAux (s.length + 1) s m := by
  induction f using Nat.strong_induction_on with
  | _ f ih =>
    intro s m hf
    match f, hf with
    | g + 1, hf =>
      cases hdec : decodeNode s with
      | error e => cases e <;> simp [replayAux, hdec]
      | ok p =>
        obtain ⟨r, rest⟩ := p
        have hlt : rest.length < s.length := decodeNode_ok_length hdec
        simp only [replayAux, hdec]
        rw [ih g (by omega) rest (memReplace m r) (by omega),
          ih s.length (by omega) rest (memReplace m r) (by omega)]

theorem replayWal_nil (m : Memtable) : replayWal [] m = .ok m := rfl

theorem replayAux_step (f : Nat) (s : List Nat) (m : Memtable) (r : Rec)
    (rest : List Nat) (hdec : decodeNode s = .ok (r, rest)) :
    replayAux (f + 1) s m = replayAux f rest (memReplace m r) := by
  simp only [replayAux, hdec]

theorem replayWal_cons (r : Rec) (t : List Nat) (m : Memtable) (h : RecWF r) :
    replayWal (encodeNode r ++ t) m = replayWal t (memReplace m r) := by
  have hE : 48 ≤ (encodeNode r).length := by rw [encodeNode_len]; omega
  have hlen : (encodeNode r ++ t).length = (encodeNode r).length + t.length := by simp
  unfold replayWal
  rw [replayAux_step (encodeNode r ++ t).length (encodeNode r ++ t) m r t
    (decodeNode_encode_append r t h)]
  rw [replayAux_fuel_eq _ _ _ (by omega)]

theorem replayWal_concat (ns : List Rec) (t : List Nat) (m : Memtable)
    (h : ∀ r ∈ ns, RecWF r) :
    replayWal (walBytes ns ++ t) m = replayWal t (replayRecs ns m) := by
  induction ns generalizing m with
  | nil => simp [walBytes, replayRecs]
  | cons r ns ih =>
    have hw : walBytes (r :: ns) = encodeNode r ++ walBytes ns := by simp [walBytes]
    rw [hw, List.append_assoc, replayWal_cons _ _ _ (h r (by simp))]
    rw [ih (memReplace m r) (fun x hx => h x (List.mem_cons_of_mem r hx))]
    simp [replayRecs]

/-! ## Claim C1: `Set` after `Delete` in the same memtable epoch -/

/-- C1: the claim "`Set(k, v)` success followed immediately by `Get(k)`
returns `v` … even when a `Delete(k)` preceded the `Set` in the same memtable
epoch" FAILS on the code: `Lsm.Set` on an existing node assigns only
`node.value` and leaves the tombstone's `deleted` flag set, so the `Get`
reports `ErrNotFound`.  The code contradicts its own WAL (which records the
live `Set`, so replay resurrects the key — see C2): with `k = [107]`,
`v = [118]`, after `Delete(k)` the `Set` succeeds, yet `Get` returns
`NotFound`. -/
theorem c1_set_after_delete_get_fails :
    (setOp (runOps [Op.del [107]]) [107] [118] .ok).1 = .ok () ∧
    getOp (runOps [Op.del [107], Op.set [107] [118]]) [107] = .error .notFound ∧
    .error .notFound ≠ (Except.ok [118] : Except LsmErr (List Nat)) := by decide

/-! ## Claim C2: reopen preserves every `Get` result -/

/-- C2: the claim "closing and reopening the store yields the same `Get`
result for every key" FAILS on the code, through the same slip as C1: after
`Delete(k); Set(k, v)` the running engine answers `NotFound` (stale tombstone
flag), but the WAL holds the tombstone followed by the live record, so replay
on reopen rebuilds a live node and the reopened store answers `v`. -/
theorem c2_reopen_changes_get :
    getOp (runOps [Op.del [107], Op.set [107] [118]]) [107] = .error .notFound ∧
    getOp (reopenLsm (runOps [Op.del [107], Op.set [107] [118]])) [107] =
      .ok [118] := by decide

/-! ## Claim C9: WAL durability of `Set` / `Delete` -/

/-- C9: if the WAL append/fsync fails, `Set` and `Delete` return that error
and leave the state (in particular the memtable) unchanged; conversely an
accepted `Set`/`Delete` implies the WAL write succeeded and the record was
appended before returning. -/
theorem c9_wal_durability (s : LsmState) (k v : List Nat) (e : LsmErr)
    (o : WalOutcome) (hk : k ≠ []) (hv : v ≠ []) :
    ((setOp s k v (.fail e)).1 = .error e ∧ (setOp s k v (.fail e)).2 = s) ∧
    ((delOp s k (.fail e)).1 = .error e ∧ (delOp s k (.fail e)).2 = s) ∧
    ((setOp s k v o).1 = .ok () →
      o = .ok ∧ (setOp s k v o).2.wal = s.wal ++ [⟨k, v, false⟩]) ∧
    ((delOp s k o).1 = .ok () →
      o = .ok ∧ (delOp s k o).2.wal = s.wal ++ [⟨k, [], true⟩]) := by
  have hke : k.isEmpty = false := isEmpty_false_of_ne_nil hk
  have hve : v.isEmpty = false := isEmpty_false_of_ne_nil hv
  cases o with
  | ok => simp [setOp, delOp, hke, hve]
  | fail e' => simp [setOp, delOp, hke, hve]

/-- Witness for C9 at a concrete state, key, value and failing outcome. -/
theorem c9_wal_durability_witness :
    ([107] : List Nat) ≠ [] ∧ ([118] : List Nat) ≠ [] ∧
    ((setOp initLsm [107] [118] (.fail .ioFault)).1 = .error .ioFault ∧
      (setOp initLsm [107] [118] (.fail .ioFault)).2 = initLsm) ∧
    ((delOp initLsm [107] (.fail .ioFault)).1 = .error .ioFault ∧
      (delOp initLsm [107] (.fail .ioFault)).2 = initLsm) ∧
    ((setOp initLsm [107] [118] .ok).1 = .ok () →
      WalOutcome.ok = .ok ∧
      (setOp initLsm [107] [118] .ok).2.wal = initLsm.wal ++ [⟨[107], [118], false⟩]) ∧
    ((delOp initLsm [107] .ok).1 = .ok () →
      WalOutcome.ok = .ok ∧
      (delOp initLsm [107] .ok).2.wal = initLsm.wal ++ [⟨[107], [], true⟩]) := by
  refine ⟨by decide, by decide, ?_⟩
  have h1 := c9_wal_durability initLsm [107] [118] .ioFault (.fail .ioFault)
    (by decide) (by decide)
  have h2 := c9_wal_durability initLsm [107] [118] .ioFault .ok
    (by decide) (by decide)
  exact ⟨h1.1, h1.2.1, h2.2.2.1, h2.2.2.2⟩

/-! ## Claim C7: the on-disk record layout -/

/-- C7 counterexample: the claim's 24-byte header with an 8-byte checksum is
wrong — encoding the record with key `[97]` and value `[98]` yields 50 bytes,
not the 24 + 1 + 1 = 26 the claim implies: the header is 48 bytes because the
checksum is a 32-byte SHA-256 digest, not an 8-byte hash. -/
theorem c7_layout_counterexample :
    (encodeNode ⟨[97], [98], false⟩).length = 50 ∧
    (encodeNode ⟨[97], [98], false⟩).length ≠
      24 + ([97] : List Nat).length + ([98] : List Nat).length := by decide

/-- C7 (amended): every encoded record is a fixed 48-byte little-endian
header — magic `0x4CBDABDA` at offset 0, deleted flag at offset 4, key length
at offset 8, value length at offset 12, and a 32-byte SHA-256 checksum at
offset 16 covering the first sixteen header bytes followed by the key and
value bytes — followed by the raw key and value bytes. -/
theorem c7_amended_layout (r : Rec) (hk : r.key.length < U32) (hv : r.value.length < U32) :
    (encodeNode r).length = 48 + r.key.length + r.value.length ∧
    (encodeNode r).take 4 = le32 MAGIC ∧
    ((encodeNode r).drop 4).take 4 = le32 (if r.deleted then 1 else 0) ∧
    ((encodeNode r).drop 8).take 4 = le32 r.key.length ∧
    ((encodeNode r).drop 12).take 4 = le32 r.value.length ∧
    ((encodeNode r).drop 16).take 32 =
      sha256Bytes ((encodeNode r).take 16 ++ r.key ++ r.value) ∧
    (encodeNode r).drop 48 = r.key ++ r.value := by
  have h16 : (hdr16 r).length = 16 := hdr16_len r
  have hassoc : encodeNode r =
      hdr16 r ++ (sha256Bytes (ckMsg r) ++ (r.key ++ r.value)) := by
    simp [encodeNode]
  have hdt : ∀ n, n ≤ 16 →
      ((encodeNode r).drop n).take 4 = ((hdr16 r).drop n).take 4 ∨ 12 < n := by
    intro n hn
    by_cases h12 : n ≤ 12
    · left
      rw [hassoc, List.drop_append_of_le_length (by omega),
        List.take_append_of_le_length (by rw [List.length_drop]; omega)]
    · right; omega
  refine ⟨encodeNode_len r, ?_, ?_, ?_, ?_, ?_, encodeNode_drop48 r⟩
  · rw [hassoc, List.take_append_of_le_length (by omega), hdr16_take4]
  · rcases hdt 4 (by omega) with h | h
    · rw [h, hdr16_window4]
    · omega
  · rcases hdt 8 (by omega) with h | h
    · rw [h, hdr16_window8, Nat.mod_eq_of_lt hk]
    · omega
  · rcases hdt 12 (by omega) with h | h
    · rw [h, hdr16_window12, Nat.mod_eq_of_lt hv]
    · omega
  · have hd16 : (encodeNode r).drop 16 =
        sha256Bytes (ckMsg r) ++ (r.key ++ r.value) := by
      rw [hassoc]
      exact List.drop_left' (hdr16_len r)
    rw [hd16, List.take_left' (sha256Bytes_len _), encodeNode_take16]
    rfl

/-- Witness for C7 (amended) at a concrete record. -/
theorem c7_amended_layout_witness :
    (([97, 98] : List Nat).length < U32 ∧ ([99] : List Nat).length < U32) ∧
    ((encodeNode ⟨[97, 98], [99], true⟩).length = 48 + 2 + 1 ∧
      (encodeNode ⟨[97, 98], [99], true⟩).take 4 = le32 MAGIC ∧
      ((encodeNode ⟨[97, 98], [99], true⟩).drop 4).take 4 = le32 1 ∧
      ((encodeNode ⟨[97, 98], [99], true⟩).drop 8).take 4 = le32 2 ∧
      ((encodeNode ⟨[97, 98], [99], true⟩).drop 12).take 4 = le32 1 ∧
      ((encodeNode ⟨[97, 98], [99], true⟩).drop 16).take 32 =
        sha256Bytes ((encodeNode ⟨[97, 98], [99], true⟩).take 16 ++ [97, 98] ++ [99]) ∧
      (encodeNode ⟨[97, 98], [99], true⟩).drop 48 = [97, 98] ++ [99]) := by
  refine ⟨⟨by decide, by decide⟩, ?_⟩
  exact c7_amended_layout ⟨[97, 98], [99], true⟩ (by decide) (by decide)

/-! ## Claim C5: replay of a WAL with a corrupt tail -/

/-- C5 counterexample: a WAL holding one valid record followed by a single
corrupt byte does NOT replay successfully — `restoreFromLog` propagates the
`io.ErrUnexpectedEOF` from `binary.Read`'s partial header, so `OpenLsm`
fails, contradicting the claim that the open succeeds with the tail
discarded. -/
theorem c5_corrupt_tail_counterexample :
    replayWal (walBytes [⟨[107], [118], false⟩] ++ [0]) [] =
      .error .unexpectedEOF := by decide

/-! ## Claim C8 counterexample -/

/-- C8 counterexample: flipping bit 64 of an encoding (the low bit of the key
length field, turning length 2 into 3) makes decode fail with `io.EOF` from
the value read — neither `BadMagic` nor `BadChecksum`, contrary to the
claim. -/
theorem c8_flip_counterexample :
    decodeNode (flipBit 64 (encodeNode ⟨[97, 98], [99], false⟩)) = .error .eof ∧
    LsmErr.eof ≠ .badMagic ∧ LsmErr.eof ≠ .badChecksum := by decide

/-! ## Go string order: lemmas about `keyLt` -/

theorem keyLt_irrefl (a : List Nat) : keyLt a a = false := by
  induction a with
  | nil => rfl
  | cons x xs ih => simp [keyLt, ih]

theorem keyLt_trans {a b c : List Nat} (h1 : keyLt a b = true)
    (h2 : keyLt b c = true) : keyLt a c = true := by
  induction a generalizing b c with
  | nil =>
    match c with
    | [] => match b with
      | [] => exact h2
      | _ :: _ => simp [keyLt] at h2
    | _ :: _ => rfl
  | cons x xs ih =>
    match b, c with
    | [], _ => simp [keyLt] at h1
    | _ :: _, [] => simp [keyLt] at h2
    | y :: ys, z :: zs =>
      simp only [keyLt] at h1 h2 ⊢
      split_ifs at h1 h2 ⊢ <;>
        first
          | rfl
          | (exfalso; omega)
          | (exact ih h1 h2)
          | simp at h1
          | simp at h2

theorem keyLt_eq_of_both_false {a b : List Nat} (h1 : keyLt a b = false)
    (h2 : keyLt b a = false) : a = b := by
  induction a generalizing b with
  | nil =>
    match b with
    | [] => rfl
    | _ :: _ => simp [keyLt] at h1
  | cons x xs ih =>
    match b with
    | [] => simp [keyLt] at h2
    | y :: ys =>
      simp only [keyLt] at h1 h2
      split_ifs at h1 h2 <;>
        first
          | simp at h1
          | simp at h2
          | (rename_i hxy hyx
             have hxy2 : x = y := by omega
             rw [hxy2, ih h1 h2])

theorem keyLt_asymm {a b : List Nat} (h : keyLt a b = true) : keyLt b a = false := by
  cases h2 : keyLt b a with
  | false => rfl
  | true =>
    have := keyLt_trans h h2
    rw [keyLt_irrefl] at this
    cases this

theorem ne_of_keyLt {a b : List Nat} (h : keyLt a b = true) : a ≠ b := by
  intro hc
  subst hc
  rw [keyLt_irrefl] at h
  cases h

/-! ## Claim C4: the two-way SST merge -/

/-- Records sorted strictly ascending by key — the shape of every SST file. -/
def SortedRecs (l : List Rec) : Prop :=
  List.Pairwise (fun a b => keyLt a.key b.key = true) l

/-- `curr`-first then `prev` choice on lookup results. -/
def orOpt (a b : Option Rec) : Option Rec :=
  match a with
  | some x => some x
  | none => b

/-- The record stored for `k` (first match in file order), as `SsTable.Get`
scans it. -/
def findInSst (st : List Rec) (k : List Nat) : Option Rec :=
  st.find? (fun r => r.key == k)

theorem mem_mergeRecs {p c : List Rec} {r : Rec} (h : r ∈ mergeRecs p c) :
    r ∈ p ∨ r ∈ c := by
  induction p, c using mergeRecs.induct with
  | case1 => simp [mergeRecs] at h
  | case2 c cs ih =>
    simp only [mergeRecs, List.mem_cons] at h
    rcases h with h | h
    · right; simp [h]
    · rcases ih h with h2 | h2
      · left; exact h2
      · right; simp [h2]
  | case3 p ps ih =>
    simp only [mergeRecs, List.mem_cons] at h
    rcases h with h | h
    · left; simp [h]
    · rcases ih h with h2 | h2
      · left; simp [h2]
      · right; exact h2
  | case4 p ps c cs heq ih =>
    rw [mergeRecs, if_pos heq] at h
    rcases List.mem_cons.mp h with h | h
    · right; simp [h]
    · rcases ih h with h2 | h2
      · left; simp [h2]
      · right; simp [h2]
  | case5 p ps c cs heq hlt ih =>
    rw [mergeRecs, if_neg heq, if_pos hlt] at h
    rcases List.mem_cons.mp h with h | h
    · left; simp [h]
    · rcases ih h with h2 | h2
      · left; simp [h2]
      · right; exact h2
  | case6 p ps c cs heq hlt ih =>
    rw [mergeRecs, if_neg heq, if_neg hlt] at h
    rcases List.mem_cons.mp h with h | h
    · right; simp [h]
    · rcases ih h with h2 | h2
      · left; exact h2
      · right; simp [h2]

theorem findInSst_cons (r : Rec) (l : List Rec) (k : List Nat) :
    findInSst (r :: l) k = if r.key == k then some r else findInSst l k := by
  simp only [findInSst, List.find?_cons]
  split <;> rename_i hsp <;> simp [hsp]

theorem findInSst_eq_none_of_all_gt {l : List Rec} {k : List Nat}
    (h : ∀ r ∈ l, keyLt k r.key = true) : findInSst l k = none := by
  rw [findInSst, List.find?_eq_none]
  intro r hr
  simp only [beq_iff_eq]
  intro hc
  exact (ne_of_keyLt (h r hr)) hc.symm

theorem sorted_tail_gt {r0 : Rec} {l : List Rec} (h : SortedRecs (r0 :: l))
    {k : List Nat} (hk : keyLt k r0.key = true) :
    ∀ r ∈ r0 :: l, keyLt k r.key = true := by
  intro r hr
  rcases List.mem_cons.mp hr with h1 | h1
  · rw [h1]; exact hk
  · exact keyLt_trans hk ((List.pairwise_cons.mp h).1 r h1)

theorem findRec_mergeRecs (p c : List Rec) (k : List Nat) :
    SortedRecs p → SortedRecs c →
    findInSst (mergeRecs p c) k = orOpt (findInSst c k) (findInSst p k) := by
  induction p, c using mergeRecs.induct with
  | case1 =>
    intro _ _
    simp [mergeRecs, findInSst, orOpt]
  | case2 c cs ih =>
    intro hp hc
    rw [mergeRecs, findInSst_cons, findInSst_cons]
    by_cases hk : c.key == k
    · simp [hk, orOpt]
    · simp only [hk, Bool.false_eq_true, if_false]
      rw [ih hp (List.Pairwise.of_cons hc)]
  | case3 p ps ih =>
    intro hp hc
    rw [mergeRecs, findInSst_cons, findInSst_cons]
    by_cases hk : p.key == k
    · simp [hk, orOpt, findInSst]
    · simp only [hk, Bool.false_eq_true, if_false]
      rw [ih (List.Pairwise.of_cons hp) hc]
  | case4 p ps c cs heq ih =>
    intro hp hc
    rw [mergeRecs, if_pos heq, findInSst_cons, findInSst_cons, findInSst_cons]
    by_cases hk : c.key == k
    · simp [hk, orOpt]
    · have hpk : (p.key == k) = false := by
        rw [heq]
        simpa using hk
      simp only [hk, hpk, Bool.false_eq_true, if_false]
      exact ih (List.Pairwise.of_cons hp) (List.Pairwise.of_cons hc)
  | case5 p ps c cs heq hlt ih =>
    intro hp hc
    rw [mergeRecs, if_neg heq, if_pos hlt, findInSst_cons]
    by_cases hk : p.key == k
    · have hkeq : p.key = k := by simpa using hk
      have hnone : findInSst (c :: cs) k = none := by
        apply findInSst_eq_none_of_all_gt
        apply sorted_tail_gt hc
        rw [← hkeq]
        exact hlt
      rw [hnone, findInSst_cons]
      simp [hk, orOpt]
    · simp only [hk, Bool.false_eq_true, if_false]
      rw [ih (List.Pairwise.of_cons hp) hc]
      have : findInSst (p :: ps) k = findInSst ps k := by
        rw [findInSst_cons]
        simp [hk]
      rw [this]
  | case6 p ps c cs heq hlt ih =>
    intro hp hc
    rw [mergeRecs, if_neg heq, if_neg hlt, findInSst_cons]
    by_cases hk : c.key == k
    · rw [findInSst_cons]
      simp [hk, orOpt]
    · simp only [hk, Bool.false_eq_true, if_false]
      rw [ih hp (List.Pairwise.of_cons hc)]
      have : findInSst (c :: cs) k = findInSst cs k := by
        rw [findInSst_cons]
        simp [hk]
      rw [this]

theorem sorted_mergeRecs (p c : List Rec) :
    SortedRecs p → SortedRecs c → SortedRecs (mergeRecs p c) := by
  induction p, c using mergeRecs.induct with
  | case1 =>
    intro _ _
    simp [mergeRecs, SortedRecs]
  | case2 c cs ih =>
    intro hp hc
    rw [mergeRecs, SortedRecs, List.pairwise_cons]
    refine ⟨?_, ih hp (List.Pairwise.of_cons hc)⟩
    intro r hr
    rcases mem_mergeRecs hr with h | h
    · simp at h
    · exact (List.pairwise_cons.mp hc).1 r h
  | case3 p ps ih =>
    intro hp hc
    rw [mergeRecs, SortedRecs, List.pairwise_cons]
    refine ⟨?_, ih (List.Pairwise.of_cons hp) hc⟩
    intro r hr
    rcases mem_mergeRecs hr with h | h
    · exact (List.pairwise_cons.mp hp).1 r h
    · simp at h
  | case4 p ps c cs heq ih =>
    intro hp hc
    rw [mergeRecs, if_pos heq, SortedRecs, List.pairwise_cons]
    refine ⟨?_, ih (List.Pairwise.of_cons hp) (List.Pairwise.of_cons hc)⟩
    intro r hr
    rcases mem_mergeRecs hr with h | h
    · rw [← heq]
      exact (List.pairwise_cons.mp hp).1 r h
    · exact (List.pairwise_cons.mp hc).1 r h
  | case5 p ps c cs heq hlt ih =>
    intro hp hc
    rw [mergeRecs, if_neg heq, if_pos hlt, SortedRecs, List.pairwise_cons]
    refine ⟨?_, ih (List.Pairwise.of_cons hp) hc⟩
    intro r hr
    rcases mem_mergeRecs hr with h | h
    · exact (List.pairwise_cons.mp hp).1 r h
    · rcases List.mem_cons.mp h with h2 | h2
      · rw [h2]; exact hlt
      · exact keyLt_trans hlt ((List.pairwise_cons.mp hc).1 r h2)
  | case6 p ps c cs heq hlt ih =>
    intro hp hc
    rw [mergeRecs, if_neg heq, if_neg hlt, SortedRecs, List.pairwise_cons]
    refine ⟨?_, ih hp (List.Pairwise.of_cons hc)⟩
    intro r hr
    have hcp : keyLt c.key p.key = true := by
      cases hcp2 : keyLt c.key p.key with
      | true => rfl
      | false =>
        exact absurd (keyLt_eq_of_both_false (by simpa using hlt) hcp2) heq
    rcases mem_mergeRecs hr with h | h
    · rcases List.mem_cons.mp h with h2 | h2
      · rw [h2]; exact hcp
      · exact keyLt_trans hcp ((List.pairwise_cons.mp hp).1 r h2)
    · exact (List.pairwise_cons.mp hc).1 r h

theorem findInSst_self_of_sorted {l : List Rec} {r : Rec}
    (hs : SortedRecs l) (hr : r ∈ l) : findInSst l r.key = some r := by
  induction l with
  | nil => simp at hr
  | cons x xs ih =>
    rw [findInSst_cons]
    rcases List.mem_cons.mp hr with h | h
    · rw [h]; simp
    · have hlt : keyLt x.key r.key = true := (List.pairwise_cons.mp hs).1 r h
      have hne : (x.key == r.key) = false := by
        simpa using ne_of_keyLt hlt
      rw [hne]
      simp only [Bool.false_eq_true, if_false]
      exact ih (List.Pairwise.of_cons hs) h

/-- C4: for sorted inputs `prev` (older) and `curr` (newer), the merge output
is sorted strictly ascending (hence duplicate-free); the record visible in the
output at any key is precisely the record obtained by consulting `curr` first
and then `prev`; every record of `curr` survives into the output and every
record of `prev` whose key `curr` does not hold survives as well — tombstone
records included, since records pass through unchanged. -/
theorem c4_merge_correct (p c : List Rec) (hp : SortedRecs p) (hc : SortedRecs c) :
    SortedRecs (mergeRecs p c) ∧
    (∀ k, findInSst (mergeRecs p c) k = orOpt (findInSst c k) (findInSst p k)) ∧
    (∀ r ∈ c, r ∈ mergeRecs p c) ∧
    (∀ r ∈ p, findInSst c r.key = none → r ∈ mergeRecs p c) := by
  refine ⟨sorted_mergeRecs p c hp hc, fun k => findRec_mergeRecs p c k hp hc, ?_, ?_⟩
  · intro r hr
    have h1 : findInSst (mergeRecs p c) r.key = some r := by
      rw [findRec_mergeRecs p c r.key hp hc, findInSst_self_of_sorted hc hr]
      rfl
    exact List.mem_of_find?_eq_some h1
  · intro r hr hnone
    have h1 : findInSst (mergeRecs p c) r.key = some r := by
      rw [findRec_mergeRecs p c r.key hp hc, hnone, findInSst_self_of_sorted hp hr]
      rfl
    exact List.mem_of_find?_eq_some h1

/-- Witness for C4: merging `prev = [k1 ↦ 10, k2 ↦ 20]` with
`curr = [k2 tombstone, k3 ↦ 30]` keeps the newer tombstone for `k2`. -/
theorem c4_merge_correct_witness :
    SortedRecs [⟨[1], [10], false⟩, ⟨[2], [20], false⟩] ∧
    SortedRecs [⟨[2], [], true⟩, ⟨[3], [30], false⟩] ∧
    findInSst
      (mergeRecs [⟨[1], [10], false⟩, ⟨[2], [20], false⟩]
        [⟨[2], [], true⟩, ⟨[3], [30], false⟩]) [2] =
      orOpt (findInSst [⟨[2], [], true⟩, ⟨[3], [30], false⟩] [2])
        (findInSst [⟨[1], [10], false⟩, ⟨[2], [20], false⟩] [2]) := by
  refine ⟨?_, ?_, ?_⟩
  · simp [SortedRecs, keyLt]
  · simp [SortedRecs, keyLt]
  · exact (c4_merge_correct _ _ (by simp [SortedRecs, keyLt])
      (by simp [SortedRecs, keyLt])).2.1 [2]

/-! ## Claim C6: flush writes every memtable entry in sorted key order -/

theorem insertRecAsc_perm (r : Rec) (l : List Rec) :
    (insertRecAsc r l).Perm (r :: l) := by
  induction l with
  | nil => exact List.Perm.refl _
  | cons x xs ih =>
    rw [insertRecAsc]
    split
    · exact List.Perm.refl _
    · exact (ih.cons x).trans (List.Perm.swap r x xs)

theorem flushRecs_perm (m : Memtable) : (flushRecs m).Perm m := by
  induction m with
  | nil => exact List.Perm.refl _
  | cons r rs ih =>
    show (insertRecAsc r (flushRecs rs)).Perm (r :: rs)
    exact (insertRecAsc_perm r (flushRecs rs)).trans (ih.cons r)

theorem pairwise_le_insertRecAsc (r : Rec) (l : List Rec)
    (h : List.Pairwise (fun a b => keyLt b.key a.key = false) l) :
    List.Pairwise (fun a b => keyLt b.key a.key = false) (insertRecAsc r l) := by
  induction l with
  | nil => simp [insertRecAsc]
  | cons x xs ih =>
    rw [insertRecAsc]
    split
    · rename_i hlt
      rw [List.pairwise_cons]
      refine ⟨?_, h⟩
      intro y hy
      rcases List.mem_cons.mp hy with h1 | h1
      · rw [h1]; exact keyLt_asymm hlt
      · cases hyr : keyLt y.key r.key with
        | false => rfl
        | true =>
          have h1t := keyLt_trans hyr hlt
          have h2f := (List.pairwise_cons.mp h).1 y h1
          rw [h2f] at h1t
          cases h1t
    · rename_i hnlt
      rw [List.pairwise_cons]
      refine ⟨?_, ih (List.Pairwise.of_cons h)⟩
      intro y hy
      rcases List.mem_cons.mp ((insertRecAsc_perm r xs).mem_iff.mp hy) with h1 | h1
      · rw [h1]; simpa using hnlt
      · exact (List.pairwise_cons.mp h).1 y h1

theorem pairwise_le_flushRecs (m : Memtable) :
    List.Pairwise (fun a b => keyLt b.key a.key = false) (flushRecs m) := by
  induction m with
  | nil => simp [flushRecs]
  | cons r rs ih => exact pairwise_le_insertRecAsc r (flushRecs rs) ih

theorem sorted_of_le_nodup {l : List Rec}
    (h1 : List.Pairwise (fun a b => keyLt b.key a.key = false) l)
    (h2 : (l.map (fun r => r.key)).Nodup) : SortedRecs l := by
  induction l with
  | nil => simp [SortedRecs]
  | cons x xs ih =>
    simp only [List.map_cons, List.nodup_cons] at h2
    rw [SortedRecs, List.pairwise_cons]
    constructor
    · intro y hy
      have hle := (List.pairwise_cons.mp h1).1 y hy
      cases hxy : keyLt x.key y.key with
      | true => rfl
      | false =>
        have heq := keyLt_eq_of_both_false hxy hle
        exact absurd (heq ▸ List.mem_map_of_mem (fun r => r.key) hy) h2.1
    · exact ih (List.Pairwise.of_cons h1) h2.2

/-- C6: flushing a memtable (unique keys) writes exactly its entries — the
tombstones included — as a strictly-ascending-by-key record sequence; no entry
and in particular no tombstone is dropped. -/
theorem c6_flush_sorted_complete (m : Memtable)
    (h : (m.map (fun r => r.key)).Nodup) :
    SortedRecs (flushRecs m) ∧ (∀ r : Rec, r ∈ flushRecs m ↔ r ∈ m) := by
  constructor
  · exact sorted_of_le_nodup (pairwise_le_flushRecs m)
      (((flushRecs_perm m).map (fun r => r.key)).nodup_iff.mpr h)
  · intro r
    exact (flushRecs_perm m).mem_iff

/-- Witness for C6: an out-of-order memtable holding a tombstone flushes to a
sorted file that retains the tombstone. -/
theorem c6_flush_sorted_complete_witness :
    (([⟨[2], [9], false⟩, ⟨[1], [], true⟩] : Memtable).map
      (fun r => r.key)).Nodup ∧
    SortedRecs (flushRecs [⟨[2], [9], false⟩, ⟨[1], [], true⟩]) ∧
    ((⟨[1], [], true⟩ : Rec) ∈ flushRecs [⟨[2], [9], false⟩, ⟨[1], [], true⟩] ↔
      (⟨[1], [], true⟩ : Rec) ∈ ([⟨[2], [9], false⟩, ⟨[1], [], true⟩] : Memtable)) := by
  refine ⟨by decide, ?_, ?_⟩
  · exact (c6_flush_sorted_complete _ (by decide)).1
  · exact (c6_flush_sorted_complete _ (by decide)).2 ⟨[1], [], true⟩

/-! ## Claim C3: the `Get` read path -/

theorem insertDesc_perm (x : Nat) (l : List Nat) :
    (insertDesc x l).Perm (x :: l) := by
  induction l with
  | nil => exact List.Perm.refl _
  | cons y ys ih =>
    rw [insertDesc]
    split
    · exact List.Perm.refl _
    · exact (ih.cons y).trans (List.Perm.swap x y ys)

theorem sortDesc_perm (l : List Nat) : (sortDesc l).Perm l := by
  induction l with
  | nil => exact List.Perm.refl _
  | cons x xs ih =>
    show (insertDesc x (sortDesc xs)).Perm (x :: xs)
    exact (insertDesc_perm x (sortDesc xs)).trans (ih.cons x)

theorem pairwise_ge_insertDesc (x : Nat) (l : List Nat)
    (h : List.Pairwise (· ≥ ·) l) :
    List.Pairwise (· ≥ ·) (insertDesc x l) := by
  induction l with
  | nil => simp [insertDesc]
  | cons y ys ih =>
    rw [insertDesc]
    split
    · rename_i hle
      rw [List.pairwise_cons]
      refine ⟨?_, h⟩
      intro z hz
      rcases List.mem_cons.mp hz with h1 | h1
      · omega
      · have := (List.pairwise_cons.mp h).1 z h1
        omega
    · rename_i hnle
      rw [List.pairwise_cons]
      refine ⟨?_, ih (List.Pairwise.of_cons h)⟩
      intro z hz
      rcases List.mem_cons.mp ((insertDesc_perm x ys).mem_iff.mp hz) with h1 | h1
      · omega
      · exact (List.pairwise_cons.mp h).1 z h1

theorem pairwise_ge_sortDesc (l : List Nat) : List.Pairwise (· ≥ ·) (sortDesc l) := by
  induction l with
  | nil => simp [sortDesc]
  | cons x xs ih => exact pairwise_ge_insertDesc x (sortDesc xs) ih

theorem pairwise_gt_of_ge_nodup {s : List Nat}
    (h1 : List.Pairwise (· ≥ ·) s) (h2 : s.Nodup) :
    List.Pairwise (· > ·) s := by
  induction s with
  | nil => simp
  | cons x xs ih =>
    simp only [List.nodup_cons] at h2
    rw [List.pairwise_cons]
    constructor
    · intro y hy
      have hge := (List.pairwise_cons.mp h1).1 y hy
      have hne : x ≠ y := fun hc => h2.1 (hc ▸ hy)
      omega
    · exact ih (List.Pairwise.of_cons h1) h2.2

theorem pairwise_gt_sortDesc (l : List Nat) (h : l.Nodup) :
    List.Pairwise (· > ·) (sortDesc l) :=
  pairwise_gt_of_ge_nodup (pairwise_ge_sortDesc l) ((sortDesc_perm l).nodup_iff.mpr h)

theorem procResults_all_notFound (rs : List (Except LsmErr (List Nat)))
    (h : ∀ x ∈ rs, x = Except.error LsmErr.notFound) :
    procResults rs = .error .notFound := by
  induction rs with
  | nil => rfl
  | cons r rs ih =>
    have hr := h r (List.mem_cons_self r rs)
    subst hr
    show procResults rs = _
    exact ih fun x hx => h x (List.mem_cons_of_mem _ hx)

theorem procResults_skip (l₁ l₂ : List (Except LsmErr (List Nat)))
    (r : Except LsmErr (List Nat)) (h : ∀ x ∈ l₁, x = Except.error LsmErr.notFound) :
    procResults (l₁ ++ r :: l₂) = procResults (r :: l₂) := by
  induction l₁ with
  | nil => rfl
  | cons a l ih =>
    have ha := h a (List.mem_cons_self a l)
    subst ha
    show procResults (l ++ r :: l₂) = _
    exact ih fun x hx => h x (List.mem_cons_of_mem _ hx)

theorem procResults_head_error (e : LsmErr) (l : List (Except LsmErr (List Nat)))
    (h1 : e ≠ .notFound) (h2 : e ≠ .deleted) :
    procResults (.error e :: l) = .error e := by
  cases e <;> first | rfl | (exact absurd rfl h1) | (exact absurd rfl h2)

/-- C3: the `Get` read path.  With a non-empty key: a live memtable node
returns its value and a memtable tombstone returns `NotFound`; on a memtable
miss the SSTs are consulted in strictly decreasing `seq` order (the iteration
order is a permutation of the table set's `seq`s, strictly descending when
they are unique); within that iteration, with all younger tables reporting
`NotFound`: a value wins, a tombstone (`Deleted`) short-circuits to
`NotFound`, `NotFound` continues with the older tables, and any other error
propagates; if every table reports `NotFound`, the `Get` is `NotFound`. -/
theorem c3_get_read_path (s : LsmState) (k : List Nat)
    (hk : k ≠ []) (hnd : (sstIds s.ssts).Nodup) :
    (∀ nd : Rec, findRec s.mem k = some nd →
      getOp s k = if nd.deleted then .error .notFound else .ok nd.value) ∧
    (findRec s.mem k = none →
      getOp s k = procResults ((sortDesc (sstIds s.ssts)).map (stGetById s.ssts k))) ∧
    List.Pairwise (· > ·) (sortDesc (sstIds s.ssts)) ∧
    (∀ id : Nat, id ∈ sortDesc (sstIds s.ssts) ↔ id ∈ sstIds s.ssts) ∧
    (∀ rs : List (Except LsmErr (List Nat)),
      (∀ x ∈ rs, x = Except.error LsmErr.notFound) →
      procResults rs = .error .notFound) ∧
    (∀ (l₁ l₂ : List (Except LsmErr (List Nat))) (v : List Nat) (e : LsmErr),
      (∀ x ∈ l₁, x = Except.error LsmErr.notFound) →
      procResults (l₁ ++ .ok v :: l₂) = .ok v ∧
      procResults (l₁ ++ .error .deleted :: l₂) = .error .notFound ∧
      procResults (l₁ ++ .error .notFound :: l₂) = procResults l₂ ∧
      (e ≠ .notFound → e ≠ .deleted →
        procResults (l₁ ++ .error e :: l₂) = .error e)) := by
  have hkemp : k.isEmpty = false := isEmpty_false_of_ne_nil hk
  refine ⟨?_, ?_, pairwise_gt_sortDesc _ hnd,
    fun id => (sortDesc_perm (sstIds s.ssts)).mem_iff, procResults_all_notFound, ?_⟩
  · intro nd hnd2
    unfold getOp
    rw [hkemp]
    simp only [Bool.false_eq_true, if_false, hnd2]
  · intro hnone
    unfold getOp
    rw [hkemp]
    simp only [Bool.false_eq_true, if_false, hnone]
    rfl
  · intro l₁ l₂ v e h1
    refine ⟨?_, ?_, ?_, ?_⟩
    · rw [procResults_skip _ _ _ h1]; rfl
    · rw [procResults_skip _ _ _ h1]; rfl
    · rw [procResults_skip _ _ _ h1]; rfl
    · intro he1 he2
      rw [procResults_skip _ _ _ h1]
      exact procResults_head_error e l₂ he1 he2

/-- Witness for C3: a store whose memtable misses the key while the younger
SST reports `NotFound` and the older one holds the value. -/
theorem c3_get_read_path_witness :
    (([107] : List Nat) ≠ [] ∧
      (sstIds [(1, [⟨[107], [9], false⟩]), (2, [⟨[200], [1], false⟩])]).Nodup) ∧
    getOp ⟨[], [(1, [⟨[107], [9], false⟩]), (2, [⟨[200], [1], false⟩])], [], 2⟩ [107] =
      procResults ((sortDesc (sstIds
        [(1, [⟨[107], [9], false⟩]), (2, [⟨[200], [1], false⟩])])).map
        (stGetById [(1, [⟨[107], [9], false⟩]), (2, [⟨[200], [1], false⟩])] [107])) ∧
    procResults [Except.error LsmErr.notFound, Except.ok [9]] = Except.ok [9] := by
  refine ⟨⟨by decide, by decide⟩, ?_, ?_⟩
  · exact (c3_get_read_path
      ⟨[], [(1, [⟨[107], [9], false⟩]), (2, [⟨[200], [1], false⟩])], [], 2⟩ [107]
      (by decide) (by decide)).2.1 (by decide)
  · exact ((c3_get_read_path
      ⟨[], [(1, [⟨[107], [9], false⟩]), (2, [⟨[200], [1], false⟩])], [], 2⟩ [107]
      (by decide) (by decide)).2.2.2.2.2 [Except.error LsmErr.notFound] [] [9]
      .ioFault (by simp)).1

/-! ## Claim C10: a successful `Get` never returns an empty value -/

/-- Every live (non-tombstone) record of the list carries a non-empty value. -/
def LiveNonempty (l : List Rec) : Prop :=
  ∀ r ∈ l, r.deleted = false → r.value ≠ []

/-- The engine invariant behind C10: live records of the memtable, of every
SST and of the WAL have non-empty values. -/
def InvState (s : LsmState) : Prop :=
  LiveNonempty s.mem ∧ (∀ p ∈ s.ssts, LiveNonempty p.2) ∧ LiveNonempty s.wal

theorem ne_nil_of_isEmpty_false {l : List Nat} (h : l.isEmpty = false) : l ≠ [] := by
  cases l with
  | nil => cases h
  | cons a as => exact List.cons_ne_nil a as

theorem liveNonempty_memSet {m : Memtable} {k v : List Nat}
    (hm : LiveNonempty m) (hv : v ≠ []) : LiveNonempty (memSet m k v) := by
  unfold memSet
  split
  · intro r hr hd
    rcases List.mem_map.mp hr with ⟨x, hx, hfx⟩
    by_cases hxk : (x.key == k) = true
    · rw [if_pos hxk] at hfx
      rw [← hfx]
      exact hv
    · rw [if_neg hxk] at hfx
      rw [← hfx] at hd ⊢
      exact hm x hx hd
  · intro r hr hd
    rcases List.mem_append.mp hr with h | h
    · exact hm r h hd
    · simp only [List.mem_singleton] at h
      rw [h]
      exact hv

theorem liveNonempty_memDel {m : Memtable} {k : List Nat}
    (hm : LiveNonempty m) : LiveNonempty (memDel m k) := by
  unfold memDel
  split
  · intro r hr hd
    rcases List.mem_map.mp hr with ⟨x, hx, hfx⟩
    by_cases hxk : (x.key == k) = true
    · rw [if_pos hxk] at hfx
      rw [← hfx] at hd
      cases hd
    · rw [if_neg hxk] at hfx
      rw [← hfx] at hd ⊢
      exact hm x hx hd
  · intro r hr hd
    rcases List.mem_append.mp hr with h | h
    · exact hm r h hd
    · simp only [List.mem_singleton] at h
      rw [h] at hd
      cases hd

theorem liveNonempty_memReplace {m : Memtable} {n : Rec}
    (hm : LiveNonempty m) (hn : n.deleted = false → n.value ≠ []) :
    LiveNonempty (memReplace m n) := by
  unfold memReplace
  split
  · intro r hr hd
    rcases List.mem_map.mp hr with ⟨x, hx, hfx⟩
    by_cases hxk : (x.key == n.key) = true
    · rw [if_pos hxk] at hfx
      rw [← hfx] at hd ⊢
      exact hn hd
    · rw [if_neg hxk] at hfx
      rw [← hfx] at hd ⊢
      exact hm x hx hd
  · intro r hr hd
    rcases List.mem_append.mp hr with h | h
    · exact hm r h hd
    · simp only [List.mem_singleton] at h
      rw [h] at hd ⊢
      exact hn hd

theorem liveNonempty_replayRecs {wal : List Rec} :
    ∀ {m : Memtable}, LiveNonempty m → LiveNonempty wal →
      LiveNonempty (replayRecs wal m) := by
  induction wal with
  | nil => intro m hm _; exact hm
  | cons n rest ih =>
    intro m hm hw
    show LiveNonempty (replayRecs rest (memReplace m n))
    exact ih (liveNonempty_memReplace hm (hw n (List.mem_cons_self n rest)))
      (fun r hr => hw r (List.mem_cons_of_mem _ hr))

theorem liveNonempty_flushRecs {m : Memtable} (hm : LiveNonempty m) :
    LiveNonempty (flushRecs m) := by
  intro r hr
  exact hm r ((flushRecs_perm m).mem_iff.mp hr)

theorem liveNonempty_mergeRecs {p c : List Rec}
    (hp : LiveNonempty p) (hc : LiveNonempty c) :
    LiveNonempty (mergeRecs p c) := by
  intro r hr
  rcases mem_mergeRecs hr with h | h
  · exact hp r h
  · exact hc r h

theorem findSst_mem {ts : TableSet} {id : Nat} {st : SsTable}
    (h : findSst ts id = some st) : ∃ pr ∈ ts, pr.2 = st := by
  unfold findSst at h
  cases hf : ts.find? (fun p => p.1 == id) with
  | none => rw [hf] at h; cases h
  | some pr =>
    rw [hf] at h
    simp only [Option.map_some'] at h
    exact ⟨pr, List.mem_of_find?_eq_some hf, by injection h⟩

theorem inv_initLsm : InvState initLsm := by
  refine ⟨?_, ?_, ?_⟩ <;> intro r hr <;> simp [initLsm] at hr

theorem inv_stepOp (s : LsmState) (op : Op) (h : InvState s) :
    InvState (stepOp s op) := by
  obtain ⟨hmem, hsst, hwal⟩ := h
  cases op with
  | set k v =>
    show InvState (setOp s k v .ok).2
    unfold setOp
    split
    · exact ⟨hmem, hsst, hwal⟩
    · split
      · exact ⟨hmem, hsst, hwal⟩
      · rename_i hv
        refine ⟨liveNonempty_memSet hmem (ne_nil_of_isEmpty_false (by simpa using hv)),
          hsst, ?_⟩
        intro r hr hd
        rcases List.mem_append.mp hr with h1 | h1
        · exact hwal r h1 hd
        · simp only [List.mem_singleton] at h1
          rw [h1]
          exact ne_nil_of_isEmpty_false (by simpa using hv)
  | del k =>
    show InvState (delOp s k .ok).2
    unfold delOp
    split
    · exact ⟨hmem, hsst, hwal⟩
    · refine ⟨liveNonempty_memDel hmem, hsst, ?_⟩
      intro r hr hd
      rcases List.mem_append.mp hr with h1 | h1
      · exact hwal r h1 hd
      · simp only [List.mem_singleton] at h1
        rw [h1] at hd
        cases hd
  | flush =>
    show InvState (compactOp s true)
    refine ⟨?_, ?_, ?_⟩
    · intro r hr; simp [compactOp] at hr
    · intro p hp
      rcases List.mem_append.mp hp with h1 | h1
      · exact hsst p h1
      · simp only [List.mem_singleton] at h1
        rw [h1]
        exact liveNonempty_flushRecs hmem
    · intro r hr; simp [compactOp] at hr
  | merge =>
    show InvState (mergeOp s)
    unfold mergeOp
    split
    · rename_i currId prevId rest hids
      cases hfp : findSst s.ssts prevId with
      | none => exact ⟨hmem, hsst, hwal⟩
      | some prevSt =>
        cases hfc : findSst s.ssts currId with
        | none => exact ⟨hmem, hsst, hwal⟩
        | some currSt =>
          refine ⟨hmem, ?_, hwal⟩
          intro p hp
          rcases List.mem_append.mp hp with h1 | h1
          · exact hsst p (List.mem_of_mem_filter h1)
          · simp only [List.mem_singleton] at h1
            rw [h1]
            obtain ⟨prp, hprp, hprp2⟩ := findSst_mem hfp
            obtain ⟨prc, hprc, hprc2⟩ := findSst_mem hfc
            exact liveNonempty_mergeRecs (hprp2 ▸ hsst prp hprp)
              (hprc2 ▸ hsst prc hprc)
    · exact ⟨hmem, hsst, hwal⟩
  | reopen =>
    show InvState (reopenLsm s)
    refine ⟨?_, ?_, ?_⟩
    · intro r hr; simp [reopenLsm] at hr
    · intro p hp
      rcases List.mem_append.mp hp with h1 | h1
      · exact hsst p h1
      · simp only [List.mem_singleton] at h1
        rw [h1]
        exact liveNonempty_flushRecs
          (liveNonempty_replayRecs (fun r hr => by simp at hr) hwal)
    · intro r hr; simp [reopenLsm] at hr

theorem inv_runOps (ops : List Op) : InvState (runOps ops) := by
  have hgen : ∀ (l : List Op) (s : LsmState), InvState s →
      InvState (l.foldl stepOp s) := by
    intro l
    induction l with
    | nil => intro s hs; exact hs
    | cons op rest ih =>
      intro s hs
      exact ih (stepOp s op) (inv_stepOp s op hs)
  exact hgen ops initLsm inv_initLsm

theorem procResults_ok_mem {rs : List (Except LsmErr (List Nat))} {v : List Nat}
    (h : procResults rs = .ok v) : Except.ok v ∈ rs := by
  induction rs with
  | nil => cases h
  | cons r rs ih =>
    match r with
    | .ok w =>
      have hw : w = v := by
        have : Except.ok w = (Except.ok v : Except LsmErr (List Nat)) := h
        injection this
      rw [hw]
      exact List.mem_cons_self _ _
    | .error e =>
      cases e <;> first
        | cases h
        | exact List.mem_cons_of_mem _ (ih h)

theorem stGet_ok {st : SsTable} {k v : List Nat} (h : stGet st k = .ok v) :
    ∃ r ∈ st, r.deleted = false ∧ r.value = v := by
  unfold stGet at h
  cases hf : st.find? (fun r => r.key == k) with
  | none =>
    rw [hf] at h
    cases h
  | some r =>
    simp only [hf] at h
    by_cases hdel : r.deleted = true
    · rw [if_pos hdel] at h
      cases h
    · rw [if_neg hdel] at h
      have h2 : r.value = v := by injection h
      exact ⟨r, List.mem_of_find?_eq_some hf, by simpa using hdel, h2⟩

theorem lookupSsTables_ok {ts : TableSet} {k v : List Nat}
    (h : lookupSsTables ts k = .ok v) :
    ∃ pr ∈ ts, ∃ r ∈ pr.2, r.deleted = false ∧ r.value = v := by
  unfold lookupSsTables at h
  rcases List.mem_map.mp (procResults_ok_mem h) with ⟨id, _, hid⟩
  unfold stGetById at hid
  cases hfs : findSst ts id with
  | none => rw [hfs] at hid; cases hid
  | some st =>
    rw [hfs] at hid
    obtain ⟨r, hr, hd, hv⟩ := stGet_ok hid
    obtain ⟨pr, hpr, hpr2⟩ := findSst_mem hfs
    refine ⟨pr, hpr, ?_⟩
    rw [hpr2]
    exact ⟨r, hr, hd, hv⟩

/-- C10: in every state reachable by `Set` / `Delete` / flush / merge /
reopen steps from a fresh store, a successful `Get` returns a non-empty
value: empty values are rejected at `Set`, tombstones are answered with
`NotFound` by both the memtable and the SST read paths, and every live record
anywhere in the store carries a non-empty value. -/
theorem c10_get_ok_nonempty (ops : List Op) (k v : List Nat)
    (h : getOp (runOps ops) k = .ok v) : v ≠ [] := by
  have hinv := inv_runOps ops
  obtain ⟨hmem, hsst, _⟩ := hinv
  unfold getOp at h
  split at h
  · cases h
  · cases hf : findRec (runOps ops).mem k with
    | some nd =>
      simp only [hf] at h
      by_cases hdel : nd.deleted = true
      · rw [if_pos hdel] at h
        cases h
      · rw [if_neg hdel] at h
        have hvv : nd.value = v := by injection h
        have hnd : nd ∈ (runOps ops).mem := List.mem_of_find?_eq_some hf
        rw [← hvv]
        exact hmem nd hnd (by simpa using hdel)
    | none =>
      rw [hf] at h
      obtain ⟨pr, hpr, r, hr, hd, hv⟩ := lookupSsTables_ok h
      rw [← hv]
      exact hsst pr hpr r hr hd

/-- Witness for C10: after a single `Set`, the `Get` succeeds and the theorem
yields that the returned value is non-empty. -/
theorem c10_get_ok_nonempty_witness :
    getOp (runOps [Op.set [107] [118]]) [107] = .ok [118] ∧
    ([118] : List Nat) ≠ [] := by
  refine ⟨by decide, ?_⟩
  exact c10_get_ok_nonempty [Op.set [107] [118]] [107] [118] (by decide)

/-! ## Claim C8: byte-level lemmas for the bit-flip analysis -/

theorem getD_take {l : List Nat} {m n : Nat} (h : n < m) :
    (l.take m).getD n 0 = l.getD n 0 := by
  rw [List.getD_eq_getElem?_getD, List.getD_eq_getElem?_getD, List.getElem?_take_of_lt h]

theorem getD_drop (l : List Nat) (m n : Nat) :
    (l.drop m).getD n 0 = l.getD (m + n) 0 := by
  rw [List.getD_eq_getElem?_getD, List.getD_eq_getElem?_getD, List.getElem?_drop]

theorem ne_of_getD_ne {a b : List Nat} (n : Nat) (h : a.getD n 0 ≠ b.getD n 0) :
    a ≠ b := fun hc => h (by rw [hc])

theorem getD_lt_256 {l : List Nat} (hl : BytesWF l) (n : Nat) : l.getD n 0 < 256 := by
  rw [List.getD_eq_getD_get?]
  cases hg : l.get? n with
  | none => simp
  | some a =>
    simp only [Option.getD_some]
    exact hl a (List.get?_mem hg)

theorem shiftLeft_one_lt_256 {j : Nat} (hj : j < 8) : (1 : Nat) <<< j < 256 := by
  rw [Nat.shiftLeft_eq, one_mul]
  calc (2 : Nat) ^ j ≤ 2 ^ 7 := Nat.pow_le_pow_right (by omega) (by omega)
    _ < 256 := by norm_num

theorem shiftLeft_one_ne_zero (j : Nat) : (1 : Nat) <<< j ≠ 0 := by
  rw [Nat.shiftLeft_eq, one_mul]
  exact pow_ne_zero j (by omega)

theorem xor_bit_ne (x j : Nat) : x ^^^ 1 <<< j ≠ x := by
  intro hc
  have h2 : x ^^^ (x ^^^ 1 <<< j) = x ^^^ x := by rw [hc]
  rw [← Nat.xor_assoc, Nat.xor_self, Nat.zero_xor] at h2
  exact shiftLeft_one_ne_zero j h2

theorem xor_bit_lt_256 {x : Nat} (hx : x < 256) {j : Nat} (hj : j < 8) :
    x ^^^ 1 <<< j < 256 :=
  Nat.xor_lt_two_pow (n := 8) hx (shiftLeft_one_lt_256 hj)

theorem drop_append_ge {l1 l2 : List Nat} {n : Nat} (h : l1.length ≤ n) :
    (l1 ++ l2).drop n = l2.drop (n - l1.length) := by
  have h2 : n = l1.length + (n - l1.length) := by omega
  conv_lhs => rw [h2]
  rw [List.drop_append]

theorem flipBit_length {i : Nat} {l : List Nat} (hb : i / 8 < l.length) :
    (flipBit i l).length = l.length := by
  simp only [flipBit, List.length_append, List.length_take, List.length_drop,
    List.length_singleton]
  omega

theorem flipBit_take_of_le {i : Nat} {l : List Nat} {m : Nat}
    (hb : i / 8 < l.length) (hm : m ≤ i / 8) :
    (flipBit i l).take m = l.take m := by
  unfold flipBit
  rw [List.take_append_of_le_length
    (by simp only [List.length_append, List.length_take, List.length_singleton]; omega)]
  rw [List.take_append_of_le_length (by rw [List.length_take]; omega)]
  rw [List.take_take, Nat.min_eq_left hm]

theorem flipBit_drop_of_lt {i : Nat} {l : List Nat} {m : Nat}
    (hb : i / 8 < l.length) (hm : i / 8 < m) :
    (flipBit i l).drop m = l.drop m := by
  unfold flipBit
  have hA : (l.take (i / 8) ++ [l.getD (i / 8) 0 ^^^ 1 <<< (i % 8)]).length = i / 8 + 1 := by
    simp only [List.length_append, List.length_take, List.length_singleton]
    omega
  rw [drop_append_ge (by omega), hA, List.drop_drop]
  congr 1
  omega

theorem flipBit_getD {i : Nat} {l : List Nat} (hb : i / 8 < l.length) (n : Nat) :
    (flipBit i l).getD n 0 =
      if n = i / 8 then l.getD n 0 ^^^ 1 <<< (i % 8) else l.getD n 0 := by
  have hA : (l.take (i / 8)).length = i / 8 := by rw [List.length_take]; omega
  have hA1 : (l.take (i / 8) ++ [l.getD (i / 8) 0 ^^^ 1 <<< (i % 8)]).length = i / 8 + 1 := by
    simp only [List.length_append, List.length_singleton]
    omega
  unfold flipBit
  by_cases h1 : n < i / 8
  · rw [if_neg (by omega)]
    rw [List.getD_append _ _ _ _ (by omega)]
    rw [List.getD_append _ _ _ _ (by omega)]
    exact getD_take h1
  · by_cases h2 : n = i / 8
    · subst h2
      rw [if_pos rfl]
      rw [List.getD_append _ _ _ _ (by omega)]
      rw [List.getD_append_right _ _ _ _ (by omega)]
      rw [hA]
      simp
    · rw [if_neg h2]
      rw [List.getD_append_right _ _ _ _ (by omega)]
      rw [getD_drop, hA1]
      congr 1
      omega

theorem bytesWF_le32 (w : Nat) : BytesWF (le32 w) := by
  intro b hb
  simp only [le32, List.mem_cons, List.not_mem_nil, or_false] at hb
  rcases hb with h | h | h | h <;> subst h <;> exact Nat.mod_lt _ (by norm_num)

theorem bytesWF_be32 (w : Nat) : BytesWF (be32 w) := by
  intro b hb
  simp only [be32, List.mem_cons, List.not_mem_nil, or_false] at hb
  rcases hb with h | h | h | h <;> subst h <;> exact Nat.mod_lt _ (by norm_num)

theorem bytesWF_sha256Bytes (m : List Nat) : BytesWF (sha256Bytes m) := by
  intro b hb
  simp only [sha256Bytes, List.mem_append] at hb
  rcases hb with ((((((h | h) | h) | h) | h) | h) | h) | h <;> exact bytesWF_be32 _ _ h

theorem bytesWF_hdr16 (r : Rec) : BytesWF (hdr16 r) := by
  intro b hb
  simp only [hdr16, List.mem_append] at hb
  rcases hb with ((h | h) | h) | h <;> exact bytesWF_le32 _ _ h

theorem bytesWF_encodeNode {r : Rec} (hk : BytesWF r.key) (hv : BytesWF r.value) :
    BytesWF (encodeNode r) := by
  intro b hb
  simp only [encodeNode, List.mem_append] at hb
  rcases hb with ((h | h) | h) | h
  · exact bytesWF_hdr16 r _ h
  · exact bytesWF_sha256Bytes _ _ h
  · exact hk _ h
  · exact hv _ h

theorem dec32_as_getD (l : List Nat) :
    dec32 l = l.getD 0 0 + l.getD 1 0 * 256 + l.getD 2 0 * 65536 +
      l.getD 3 0 * 16777216 := rfl

theorem dec32_take4_ne {u w : List Nat} (p : Nat) (hp : p < 4)
    (hne : u.getD p 0 ≠ w.getD p 0)
    (heq : ∀ n, n < 4 → n ≠ p → u.getD n 0 = w.getD n 0)
    (hu : ∀ n, u.getD n 0 < 256) (hw : ∀ n, w.getD n 0 < 256) :
    dec32 (u.take 4) ≠ dec32 (w.take 4) := by
  rw [dec32_as_getD, dec32_as_getD]
  rw [getD_take (by norm_num), getD_take (by norm_num), getD_take (by norm_num),
    getD_take (by norm_num), getD_take (by norm_num), getD_take (by norm_num),
    getD_take (by norm_num), getD_take (by norm_num)]
  have hu0 := hu 0
  have hu1 := hu 1
  have hu2 := hu 2
  have hu3 := hu 3
  have hw0 := hw 0
  have hw1 := hw 1
  have hw2 := hw 2
  have hw3 := hw 3
  interval_cases p
  · have q1 := heq 1 (by omega) (by omega)
    have q2 := heq 2 (by omega) (by omega)
    have q3 := heq 3 (by omega) (by omega)
    omega
  · have q1 := heq 0 (by omega) (by omega)
    have q2 := heq 2 (by omega) (by omega)
    have q3 := heq 3 (by omega) (by omega)
    omega
  · have q1 := heq 0 (by omega) (by omega)
    have q2 := heq 1 (by omega) (by omega)
    have q3 := heq 3 (by omega) (by omega)
    omega
  · have q1 := heq 0 (by omega) (by omega)
    have q2 := heq 1 (by omega) (by omega)
    have q3 := heq 2 (by omega) (by omega)
    omega

theorem readSingle_of_le {n : Nat} {s : List Nat} (h : n ≤ s.length) :
    readSingle n s = .ok (s.take n, s.drop n) := by
  unfold readSingle
  by_cases hn : n = 0
  · subst hn
    simp
  · have hsne : s ≠ [] := by
      intro hc
      rw [hc] at h
      simp at h
      omega
    rw [if_neg hn, isEmpty_false_of_ne_nil hsne]
    simp only [Bool.false_eq_true, if_false]
    have hz : n - s.length = 0 := by omega
    rw [hz]
    simp

theorem decodeNode_badMagic {s : List Nat} (h48 : 48 ≤ s.length)
    (hmag : dec32 ((s.take 48).take 4) ≠ MAGIC) :
    decodeNode s = .error .badMagic := by
  have hne : s ≠ [] := by
    intro hc
    rw [hc] at h48
    simp at h48
  unfold decodeNode
  rw [isEmpty_false_of_ne_nil hne]
  simp only [Bool.false_eq_true, if_false]
  rw [if_neg (by omega), if_pos hmag]

theorem decodeNode_after_magic {s : List Nat} (h48 : 48 ≤ s.length)
    (hmag : dec32 ((s.take 48).take 4) = MAGIC) :
    decodeNode s =
      (if 2 ^ 31 ≤ dec32 (((s.take 48).drop 8).take 4) then .error .negLen
      else match readSingle (dec32 (((s.take 48).drop 8).take 4)) (s.drop 48) with
        | .error e => .error e
        | .ok (keyBuf, rest2) =>
          if 2 ^ 31 ≤ dec32 (((s.take 48).drop 12).take 4) then .error .negLen
          else match readSingle (dec32 (((s.take 48).drop 12).take 4)) rest2 with
            | .error e => .error e
            | .ok (valBuf, rest3) =>
              if (s.take 48).drop 16 ≠
                  sha256Bytes ((s.take 48).take 16 ++ keyBuf ++ valBuf) then
                .error .badChecksum
              else
                .ok (⟨keyBuf, valBuf,
                  dec32 (((s.take 48).drop 4).take 4) != 0⟩, rest3)) := by
  have hne : s ≠ [] := by
    intro hc
    rw [hc] at h48
    simp at h48
  unfold decodeNode
  rw [isEmpty_false_of_ne_nil hne]
  simp only [Bool.false_eq_true, if_false]
  rw [if_neg (by omega), if_neg (fun hc => hc hmag)]

theorem decodeNode_negLen1 {s : List Nat} (h48 : 48 ≤ s.length)
    (hmag : dec32 ((s.take 48).take 4) = MAGIC)
    (hklb : 2 ^ 31 ≤ dec32 (((s.take 48).drop 8).take 4)) :
    decodeNode s = .error .negLen := by
  rw [decodeNode_after_magic h48 hmag, if_pos hklb]

theorem decodeNode_readFail1 {s : List Nat} (h48 : 48 ≤ s.length)
    (hmag : dec32 ((s.take 48).take 4) = MAGIC)
    (hklb : ¬2 ^ 31 ≤ dec32 (((s.take 48).drop 8).take 4)) {e : LsmErr}
    (hr1 : readSingle (dec32 (((s.take 48).drop 8).take 4)) (s.drop 48) = .error e) :
    decodeNode s = .error e := by
  rw [decodeNode_after_magic h48 hmag, if_neg hklb]
  simp only [hr1]

theorem decodeNode_negLen2 {s : List Nat} (h48 : 48 ≤ s.length)
    (hmag : dec32 ((s.take 48).take 4) = MAGIC)
    (hklb : ¬2 ^ 31 ≤ dec32 (((s.take 48).drop 8).take 4))
    {keyBuf rest2 : List Nat}
    (hr1 : readSingle (dec32 (((s.take 48).drop 8).take 4)) (s.drop 48) =
      .ok (keyBuf, rest2))
    (hvlb : 2 ^ 31 ≤ dec32 (((s.take 48).drop 12).take 4)) :
    decodeNode s = .error .negLen := by
  rw [decodeNode_after_magic h48 hmag, if_neg hklb]
  simp only [hr1]
  rw [if_pos hvlb]

theorem decodeNode_readFail2 {s : List Nat} (h48 : 48 ≤ s.length)
    (hmag : dec32 ((s.take 48).take 4) = MAGIC)
    (hklb : ¬2 ^ 31 ≤ dec32 (((s.take 48).drop 8).take 4))
    {keyBuf rest2 : List Nat}
    (hr1 : readSingle (dec32 (((s.take 48).drop 8).take 4)) (s.drop 48) =
      .ok (keyBuf, rest2))
    (hvlb : ¬2 ^ 31 ≤ dec32 (((s.take 48).drop 12).take 4)) {e : LsmErr}
    (hr2 : readSingle (dec32 (((s.take 48).drop 12).take 4)) rest2 = .error e) :
    decodeNode s = .error e := by
  rw [decodeNode_after_magic h48 hmag, if_neg hklb]
  simp only [hr1]
  rw [if_neg hvlb]
  simp only [hr2]

theorem decodeNode_compare {s : List Nat} (h48 : 48 ≤ s.length)
    (hmag : dec32 ((s.take 48).take 4) = MAGIC)
    (hklb : ¬2 ^ 31 ≤ dec32 (((s.take 48).drop 8).take 4))
    {keyBuf rest2 : List Nat}
    (hr1 : readSingle (dec32 (((s.take 48).drop 8).take 4)) (s.drop 48) =
      .ok (keyBuf, rest2))
    (hvlb : ¬2 ^ 31 ≤ dec32 (((s.take 48).drop 12).take 4))
    {valBuf rest3 : List Nat}
    (hr2 : readSingle (dec32 (((s.take 48).drop 12).take 4)) rest2 =
      .ok (valBuf, rest3)) :
    decodeNode s =
      (if (s.take 48).drop 16 ≠
          sha256Bytes ((s.take 48).take 16 ++ keyBuf ++ valBuf) then
        Except.error .badChecksum
      else
        .ok (⟨keyBuf, valBuf,
          dec32 (((s.take 48).drop 4).take 4) != 0⟩, rest3)) := by
  rw [decodeNode_after_magic h48 hmag, if_neg hklb]
  simp only [hr1]
  rw [if_neg hvlb]
  simp only [hr2]

theorem decodeNode_progress (s : List Nat) (h48 : 48 ≤ s.length)
    (hmag : dec32 ((s.take 48).take 4) = MAGIC) :
    (∃ e, decodeNode s = .error e) ∨
    ∃ keyBuf rest2 valBuf rest3 : List Nat,
      readSingle (dec32 (((s.take 48).drop 8).take 4)) (s.drop 48) =
        .ok (keyBuf, rest2) ∧
      readSingle (dec32 (((s.take 48).drop 12).take 4)) rest2 =
        .ok (valBuf, rest3) ∧
      decodeNode s =
        (if (s.take 48).drop 16 ≠
            sha256Bytes ((s.take 48).take 16 ++ keyBuf ++ valBuf) then
          Except.error .badChecksum
        else
          .ok (⟨keyBuf, valBuf,
            dec32 (((s.take 48).drop 4).take 4) != 0⟩, rest3)) := by
  by_cases hklb : 2 ^ 31 ≤ dec32 (((s.take 48).drop 8).take 4)
  · exact .inl ⟨.negLen, decodeNode_negLen1 h48 hmag hklb⟩
  · cases hr1 : readSingle (dec32 (((s.take 48).drop 8).take 4)) (s.drop 48) with
    | error e => exact .inl ⟨e, decodeNode_readFail1 h48 hmag hklb hr1⟩
    | ok p1 =>
      obtain ⟨keyBuf, rest2⟩ := p1
      by_cases hvlb : 2 ^ 31 ≤ dec32 (((s.take 48).drop 12).take 4)
      · exact .inl ⟨.negLen, decodeNode_negLen2 h48 hmag hklb hr1 hvlb⟩
      · cases hr2 : readSingle (dec32 (((s.take 48).drop 12).take 4)) rest2 with
        | error e => exact .inl ⟨e, decodeNode_readFail2 h48 hmag hklb hr1 hvlb hr2⟩
        | ok p2 =>
          obtain ⟨valBuf, rest3⟩ := p2
          exact .inr ⟨keyBuf, rest2, valBuf, rest3, rfl, hr2,
            decodeNode_compare h48 hmag hklb hr1 hvlb hr2⟩

/-- `decodeNode` of a truncated record tail that reads as a clean end of
log: the header parses (valid magic, in-range lengths) but the declared key
length covers every remaining byte and the declared value length is
non-zero, so the key read or the value read returns `io.EOF`. -/
theorem decodeNode_eofTail {tb : List Nat} (h48 : 48 ≤ tb.length)
    (hmag : dec32 ((tb.take 48).take 4) = MAGIC)
    (hklb : ¬2 ^ 31 ≤ dec32 (((tb.take 48).drop 8).take 4))
    (hvlb : ¬2 ^ 31 ≤ dec32 (((tb.take 48).drop 12).take 4))
    (hsw : (tb.drop 48).length ≤ dec32 (((tb.take 48).drop 8).take 4))
    (hvl0 : dec32 (((tb.take 48).drop 12).take 4) ≠ 0) :
    decodeNode tb = .error .eof := by
  by_cases hrest : tb.drop 48 = []
  · by_cases hkl0 : dec32 (((tb.take 48).drop 8).take 4) = 0
    · have hr1 : readSingle (dec32 (((tb.take 48).drop 8).take 4)) (tb.drop 48) =
          .ok ([], tb.drop 48) := by
        rw [hkl0]
        unfold readSingle
        rw [if_pos rfl]
      have hr2 : readSingle (dec32 (((tb.take 48).drop 12).take 4)) (tb.drop 48) =
          .error .eof := by
        rw [hrest]
        unfold readSingle
        rw [if_neg hvl0]
        rfl
      exact decodeNode_readFail2 h48 hmag hklb hr1 hvlb hr2
    · have hr1 : readSingle (dec32 (((tb.take 48).drop 8).take 4)) (tb.drop 48) =
          .error .eof := by
        rw [hrest]
        unfold readSingle
        rw [if_neg hkl0]
        rfl
      exact decodeNode_readFail1 h48 hmag hklb hr1
  · have hkl0 : dec32 (((tb.take 48).drop 8).take 4) ≠ 0 := by
      intro hc
      rw [hc] at hsw
      exact hrest (List.length_eq_zero.mp (Nat.le_zero.mp hsw))
    have hdrop : (tb.drop 48).drop (dec32 (((tb.take 48).drop 8).take 4)) = [] :=
      List.drop_eq_nil_of_le hsw
    have hr1 : readSingle (dec32 (((tb.take 48).drop 8).take 4)) (tb.drop 48) =
        .ok ((tb.drop 48).take (dec32 (((tb.take 48).drop 8).take 4)) ++
          List.replicate (dec32 (((tb.take 48).drop 8).take 4) -
            (tb.drop 48).length) 0, []) := by
      unfold readSingle
      rw [if_neg hkl0, isEmpty_false_of_ne_nil hrest]
      simp only [Bool.false_eq_true, if_false]
      rw [hdrop]
    have hr2 : readSingle (dec32 (((tb.take 48).drop 12).take 4)) ([] : List Nat) =
        .error .eof := by
      unfold readSingle
      rw [if_neg hvl0]
      rfl
    exact decodeNode_readFail2 h48 hmag hklb hr1 hvlb hr2

/-- C5 (amended): replay applies the valid records of the WAL in order.  The
open succeeds when the log ends at a record boundary, and also when the tail
reads as a clean end of log — at least a full header with valid magic and
in-range lengths whose declared key length covers every remaining byte and
whose declared value length is non-zero, so the key or value read hits
`io.EOF` and `restoreFromLog` breaks cleanly; such a tail is silently
discarded.  Other corrupt tails are not tolerated: a non-empty tail shorter
than one 48-byte header fails the replay (and hence the open) with
`io.ErrUnexpectedEOF`, and a tail of header size or more with a corrupted
magic fails it with `ErrLsmNodeBadMagic` — those tails are not discarded. -/
theorem c5_amended_replay (ns : List Rec) (tail : List Nat)
    (hwf : ∀ r ∈ ns, RecWF r) (h1 : tail.length < 48) (h2 : tail ≠ []) :
    replayWal (walBytes ns) [] = .ok (replayRecs ns []) ∧
    replayWal (walBytes ns ++ tail) [] = .error .unexpectedEOF ∧
    (∀ tb : List Nat, 48 ≤ tb.length → dec32 (tb.take 4) ≠ MAGIC →
      replayWal (walBytes ns ++ tb) [] = .error .badMagic) ∧
    (∀ tb : List Nat, 48 ≤ tb.length →
      dec32 ((tb.take 48).take 4) = MAGIC →
      ¬2 ^ 31 ≤ dec32 (((tb.take 48).drop 8).take 4) →
      ¬2 ^ 31 ≤ dec32 (((tb.take 48).drop 12).take 4) →
      (tb.drop 48).length ≤ dec32 (((tb.take 48).drop 8).take 4) →
      dec32 (((tb.take 48).drop 12).take 4) ≠ 0 →
      replayWal (walBytes ns ++ tb) [] = .ok (replayRecs ns [])) := by
  refine ⟨?_, ?_, ?_, ?_⟩
  · have h := replayWal_concat ns [] [] hwf
    rw [List.append_nil] at h
    rw [h, replayWal_nil]
  · rw [replayWal_concat ns tail [] hwf]
    have hdec : decodeNode tail = .error .unexpectedEOF := by
      unfold decodeNode
      rw [isEmpty_false_of_ne_nil h2]
      simp only [Bool.false_eq_true, if_false]
      rw [if_pos h1]
    unfold replayWal
    simp only [replayAux, hdec]
  · intro tb hlen hmag
    rw [replayWal_concat ns tb [] hwf]
    have hne : tb ≠ [] := by
      intro hc
      rw [hc] at hlen
      simp at hlen
    have hdec : decodeNode tb = .error .badMagic := by
      unfold decodeNode
      rw [isEmpty_false_of_ne_nil hne]
      simp only [Bool.false_eq_true, if_false]
      rw [if_neg (by omega)]
      have htt : (tb.take 48).take 4 = tb.take 4 := by
        rw [List.take_take]
        norm_num
      rw [htt, if_pos hmag]
    unfold replayWal
    simp only [replayAux, hdec]
  · intro tb h48 hmag hklb hvlb hsw hvl0
    rw [replayWal_concat ns tb [] hwf]
    have hdec := decodeNode_eofTail h48 hmag hklb hvlb hsw hvl0
    unfold replayWal
    simp only [replayAux, hdec]

/-- Witness for C5 (amended): one valid record, the failing tails `[0]` and
48 zero bytes, and the tolerated tail of one 48-byte header with valid magic,
key length 1 and value length 1 but no payload bytes. -/
theorem c5_amended_replay_witness :
    replayWal (walBytes [⟨[1], [2], false⟩]) [] =
      .ok (replayRecs [⟨[1], [2], false⟩] []) ∧
    replayWal (walBytes [⟨[1], [2], false⟩] ++ [0]) [] = .error .unexpectedEOF ∧
    replayWal (walBytes [⟨[1], [2], false⟩] ++ List.replicate 48 0) [] =
      .error .badMagic ∧
    replayWal (walBytes [⟨[1], [2], false⟩] ++
        (le32 MAGIC ++ le32 0 ++ le32 1 ++ le32 1 ++ List.replicate 32 0)) [] =
      .ok (replayRecs [⟨[1], [2], false⟩] []) := by
  have h := c5_amended_replay [⟨[1], [2], false⟩] [0]
    (by intro r hr; simp at hr; subst hr; exact ⟨by decide, by decide, by decide, by decide⟩)
    (by decide) (by decide)
  exact ⟨h.1, h.2.1, h.2.2.1 (List.replicate 48 0) (by decide) (by decide),
    h.2.2.2 (le32 MAGIC ++ le32 0 ++ le32 1 ++ le32 1 ++ List.replicate 32 0)
      (by decide) (by decide) (by decide) (by decide) (by decide) (by decide)⟩

theorem take48_take4 (l : List Nat) : (l.take 48).take 4 = l.take 4 := by
  rw [List.take_take]
  norm_num

theorem take48_take16 (l : List Nat) : (l.take 48).take 16 = l.take 16 := by
  rw [List.take_take]
  norm_num

theorem win4At (l : List Nat) (m : Nat) (hm : m + 4 ≤ 48) :
    ((l.take 48).drop m).take 4 = (l.take (m + 4)).drop m := by
  rw [List.drop_take, List.take_take, List.drop_take]
  congr 1
  omega

/-- C8 (amended): for every well-formed record the decode of its encoding is
the record itself with an empty remainder; flipping any single bit of the
encoding makes decode fail with some error or else exhibits a SHA-256
collision — in particular a flip inside the magic field (bits 0–31) always
yields `BadMagic` and a flip inside the stored checksum (bits 128–383) always
yields `BadChecksum`.  A flip in the flag, length or payload bytes can also
surface as an I/O-shaped read error (`c8_flip_counterexample`), which is why
the middle conjunct allows any error. -/
theorem c8_roundtrip_flip_error_or_collision (r : Rec) (h : RecWF r) (i : Nat)
    (hi : i < 8 * (encodeNode r).length) :
    decodeNode (encodeNode r) = .ok (r, []) ∧
    ((∃ e, decodeNode (flipBit i (encodeNode r)) = .error e) ∨ Sha256Collision) ∧
    (i < 32 → decodeNode (flipBit i (encodeNode r)) = .error .badMagic) ∧
    (128 ≤ i → i < 384 →
      decodeNode (flipBit i (encodeNode r)) = .error .badChecksum) := by
  obtain ⟨hk, hv, hkl, hvl⟩ := h
  have hlen : (encodeNode r).length = 48 + r.key.length + r.value.length :=
    encodeNode_len r
  have hp : i / 8 < (encodeNode r).length := by omega
  have hj : i % 8 < 8 := Nat.mod_lt _ (by omega)
  have hWF : BytesWF (encodeNode r) := bytesWF_encodeNode hk hv
  have hlen' : (flipBit i (encodeNode r)).length = (encodeNode r).length :=
    flipBit_length hp
  have h48' : 48 ≤ (flipBit i (encodeNode r)).length := by omega
  have hgD : ∀ n, (encodeNode r).getD n 0 < 256 := fun n => getD_lt_256 hWF n
  have hgD' : ∀ n, (flipBit i (encodeNode r)).getD n 0 < 256 := by
    intro n
    rw [flipBit_getD hp n]
    by_cases hnp : n = i / 8
    · rw [if_pos hnp]
      exact xor_bit_lt_256 (hgD n) hj
    · rw [if_neg hnp]
      exact hgD n
  have hflip_ne :
      (flipBit i (encodeNode r)).getD (i / 8) 0 ≠ (encodeNode r).getD (i / 8) 0 := by
    rw [flipBit_getD hp (i / 8), if_pos rfl]
    exact xor_bit_ne _ _
  have hflip_eq : ∀ n, n ≠ i / 8 →
      (flipBit i (encodeNode r)).getD n 0 = (encodeNode r).getD n 0 := by
    intro n hn
    rw [flipBit_getD hp n, if_neg hn]
  have hts48 : (encodeNode r).take 48 = hdrFull r := encodeNode_take48 r
  have hmagS : dec32 (((encodeNode r).take 48).take 4) = MAGIC := by
    rw [hts48, hdrFull_take4, dec32_le32 _ (by norm_num [MAGIC, U32])]
  have hwin8S : dec32 ((((encodeNode r).take 48).drop 8).take 4) = r.key.length := by
    rw [hts48, hdrFull_win8,
      Nat.mod_eq_of_lt (lt_trans hkl (by norm_num [U32])),
      dec32_le32 _ (lt_trans hkl (by norm_num [U32]))]
  have hwin12S : dec32 ((((encodeNode r).take 48).drop 12).take 4) = r.value.length := by
    rw [hts48, hdrFull_win12,
      Nat.mod_eq_of_lt (lt_trans hvl (by norm_num [U32])),
      dec32_le32 _ (lt_trans hvl (by norm_num [U32]))]
  have hck16S : ((encodeNode r).take 48).drop 16 = sha256Bytes (ckMsg r) := by
    rw [hts48, hdrFull_drop16]
  have htk16S : ((encodeNode r).take 48).take 16 = hdr16 r := by
    rw [hts48, hdrFull_take16]
  have hmagS4 : dec32 ((encodeNode r).take 4) = MAGIC := by
    rw [← take48_take4]
    exact hmagS
  have hA : i < 32 →
      decodeNode (flipBit i (encodeNode r)) = .error .badMagic := by
    intro hi32
    have hp4 : i / 8 < 4 := by omega
    have hne4 : dec32 ((flipBit i (encodeNode r)).take 4) ≠
        dec32 ((encodeNode r).take 4) :=
      dec32_take4_ne (i / 8) hp4 hflip_ne (fun n _ hn => hflip_eq n hn) hgD' hgD
    have hmag' : dec32 (((flipBit i (encodeNode r)).take 48).take 4) ≠ MAGIC := by
      rw [take48_take4]
      intro hc
      exact hne4 (by rw [hc, hmagS4])
    exact decodeNode_badMagic h48' hmag'
  have hB : 128 ≤ i → i < 384 →
      decodeNode (flipBit i (encodeNode r)) = .error .badChecksum := by
    intro hi1 hi2
    have hp16 : 16 ≤ i / 8 := by omega
    have hp48 : i / 8 < 48 := by omega
    have hmg : (flipBit i (encodeNode r)).take 4 = (encodeNode r).take 4 :=
      flipBit_take_of_le hp (by omega)
    have hmag' : dec32 (((flipBit i (encodeNode r)).take 48).take 4) = MAGIC := by
      rw [take48_take4, hmg, ← take48_take4]
      exact hmagS
    have hw8 : (((flipBit i (encodeNode r)).take 48).drop 8).take 4 =
        (((encodeNode r).take 48).drop 8).take 4 := by
      rw [win4At _ 8 (by omega), win4At _ 8 (by omega),
        flipBit_take_of_le hp (by omega)]
    have hw12 : (((flipBit i (encodeNode r)).take 48).drop 12).take 4 =
        (((encodeNode r).take 48).drop 12).take 4 := by
      rw [win4At _ 12 (by omega), win4At _ 12 (by omega),
        flipBit_take_of_le hp (by omega)]
    have hklb : ¬2 ^ 31 ≤ dec32 ((((flipBit i (encodeNode r)).take 48).drop 8).take 4) := by
      rw [hw8, hwin8S]
      omega
    have hvlb : ¬2 ^ 31 ≤ dec32 ((((flipBit i (encodeNode r)).take 48).drop 12).take 4) := by
      rw [hw12, hwin12S]
      omega
    have hr1 : readSingle (dec32 ((((flipBit i (encodeNode r)).take 48).drop 8).take 4))
        ((flipBit i (encodeNode r)).drop 48) = .ok (r.key, r.value) := by
      rw [hw8, hwin8S, flipBit_drop_of_lt hp (by omega), encodeNode_drop48]
      exact readSingle_exact _ _ _ rfl
    have hr2 : readSingle (dec32 ((((flipBit i (encodeNode r)).take 48).drop 12).take 4))
        r.value = .ok (r.value, []) := by
      rw [hw12, hwin12S]
      calc readSingle r.value.length r.value
          = readSingle r.value.length (r.value ++ []) := by rw [List.append_nil]
        _ = .ok (r.value, []) := readSingle_exact _ _ _ rfl
    have hcmp := decodeNode_compare h48' hmag' hklb hr1 hvlb hr2
    have hck_arg : ((flipBit i (encodeNode r)).take 48).take 16 = hdr16 r := by
      rw [take48_take16, flipBit_take_of_le hp (by omega), ← take48_take16]
      exact htk16S
    have hne_ck : ((flipBit i (encodeNode r)).take 48).drop 16 ≠
        sha256Bytes (hdr16 r ++ r.key ++ r.value) := by
      apply ne_of_getD_ne (i / 8 - 16)
      have e1 : (((flipBit i (encodeNode r)).take 48).drop 16).getD (i / 8 - 16) 0 =
          (flipBit i (encodeNode r)).getD (i / 8) 0 := by
        rw [getD_drop, getD_take (show 16 + (i / 8 - 16) < 48 by omega)]
        congr 1
        omega
      have hx : sha256Bytes (hdr16 r ++ r.key ++ r.value) =
          ((encodeNode r).take 48).drop 16 := by
        rw [hck16S]
        rfl
      have e2 : (sha256Bytes (hdr16 r ++ r.key ++ r.value)).getD (i / 8 - 16) 0 =
          (encodeNode r).getD (i / 8) 0 := by
        rw [hx, getD_drop, getD_take (show 16 + (i / 8 - 16) < 48 by omega)]
        congr 1
        omega
      rw [e1, e2]
      exact hflip_ne
    rw [hcmp, hck_arg, if_pos hne_ck]
  have hC : 32 ≤ i → i < 128 →
      (∃ e, decodeNode (flipBit i (encodeNode r)) = .error e) ∨ Sha256Collision := by
    intro hi1 hi2
    have hmg : (flipBit i (encodeNode r)).take 4 = (encodeNode r).take 4 :=
      flipBit_take_of_le hp (by omega)
    have hmag' : dec32 (((flipBit i (encodeNode r)).take 48).take 4) = MAGIC := by
      rw [take48_take4, hmg, ← take48_take4]
      exact hmagS
    rcases decodeNode_progress _ h48' hmag' with ⟨e, he⟩ |
      ⟨keyBuf, rest2, valBuf, rest3, hr1, hr2, hcmp⟩
    · exact .inl ⟨e, he⟩
    · by_cases hnec : ((flipBit i (encodeNode r)).take 48).drop 16 ≠
          sha256Bytes (((flipBit i (encodeNode r)).take 48).take 16 ++ keyBuf ++ valBuf)
      · exact .inl ⟨.badChecksum, by rw [hcmp, if_pos hnec]⟩
      · have heq := not_ne_iff.mp hnec
        have hst : ((flipBit i (encodeNode r)).take 48).drop 16 =
            sha256Bytes (ckMsg r) := by
          rw [List.drop_take, flipBit_drop_of_lt hp (by omega), ← List.drop_take]
          exact hck16S
        refine .inr ⟨((flipBit i (encodeNode r)).take 48).take 16 ++ keyBuf ++ valBuf,
          ckMsg r, ?_, heq.symm.trans hst⟩
        apply ne_of_getD_ne (i / 8)
        have e1 : ((((flipBit i (encodeNode r)).take 48).take 16 ++ keyBuf) ++
            valBuf).getD (i / 8) 0 = (flipBit i (encodeNode r)).getD (i / 8) 0 := by
          rw [List.getD_append _ _ _ _
            (by simp only [List.length_append, List.length_take]; omega)]
          rw [List.getD_append _ _ _ _ (by simp only [List.length_take]; omega)]
          rw [getD_take (show i / 8 < 16 by omega), getD_take (show i / 8 < 48 by omega)]
        have t1 : ((ckMsg r).take 16).getD (i / 8) 0 = (ckMsg r).getD (i / 8) 0 :=
          getD_take (by omega)
        have t2 : ((encodeNode r).take 16).getD (i / 8) 0 =
            (encodeNode r).getD (i / 8) 0 := getD_take (by omega)
        rw [ckMsg_take16] at t1
        rw [encodeNode_take16] at t2
        have e2 : (ckMsg r).getD (i / 8) 0 = (encodeNode r).getD (i / 8) 0 :=
          t1.symm.trans t2
        rw [e1, e2]
        exact hflip_ne
  have hD : 384 ≤ i →
      (∃ e, decodeNode (flipBit i (encodeNode r)) = .error e) ∨ Sha256Collision := by
    intro hi1
    have htk48' : (flipBit i (encodeNode r)).take 48 = (encodeNode r).take 48 :=
      flipBit_take_of_le hp (by omega)
    have hmag' : dec32 (((flipBit i (encodeNode r)).take 48).take 4) = MAGIC := by
      rw [htk48']
      exact hmagS
    rcases decodeNode_progress _ h48' hmag' with ⟨e, he⟩ |
      ⟨keyBuf, rest2, valBuf, rest3, hr1, hr2, hcmp⟩
    · exact .inl ⟨e, he⟩
    · by_cases hnec : ((flipBit i (encodeNode r)).take 48).drop 16 ≠
          sha256Bytes (((flipBit i (encodeNode r)).take 48).take 16 ++ keyBuf ++ valBuf)
      · exact .inl ⟨.badChecksum, by rw [hcmp, if_pos hnec]⟩
      · have heq := not_ne_iff.mp hnec
        have hst : ((flipBit i (encodeNode r)).take 48).drop 16 =
            sha256Bytes (ckMsg r) := by
          rw [htk48']
          exact hck16S
        rw [htk48', hwin8S] at hr1
        rw [htk48', hwin12S] at hr2
        have hblen : ((flipBit i (encodeNode r)).drop 48).length =
            r.key.length + r.value.length := by
          rw [List.length_drop, hlen', hlen]
          omega
        have hts := (readSingle_of_le
          (show r.key.length ≤ ((flipBit i (encodeNode r)).drop 48).length by
            rw [hblen]; omega)).symm.trans hr1
        simp only [Except.ok.injEq, Prod.mk.injEq] at hts
        obtain ⟨hkB, hrB⟩ := hts
        rw [← hrB] at hr2
        have hlen2 : (((flipBit i (encodeNode r)).drop 48).drop r.key.length).length =
            r.value.length := by
          rw [List.length_drop, hblen]
          omega
        have hts2 := (readSingle_of_le (le_of_eq hlen2.symm)).symm.trans hr2
        simp only [Except.ok.injEq, Prod.mk.injEq] at hts2
        obtain ⟨hvB, hr3B⟩ := hts2
        have hvB' : valBuf = ((flipBit i (encodeNode r)).drop 48).drop r.key.length :=
          hvB.symm.trans (List.take_of_length_le (le_of_eq hlen2))
        have hkv : keyBuf ++ valBuf = (flipBit i (encodeNode r)).drop 48 := by
          rw [← hkB, hvB']
          exact List.take_append_drop _ _
        have hbody_ne : (flipBit i (encodeNode r)).drop 48 ≠ r.key ++ r.value := by
          apply ne_of_getD_ne (i / 8 - 48)
          have e1 : ((flipBit i (encodeNode r)).drop 48).getD (i / 8 - 48) 0 =
              (flipBit i (encodeNode r)).getD (i / 8) 0 := by
            rw [getD_drop]
            congr 1
            omega
          have e2 : (r.key ++ r.value).getD (i / 8 - 48) 0 =
              (encodeNode r).getD (i / 8) 0 := by
            rw [← encodeNode_drop48, getD_drop]
            congr 1
            omega
          rw [e1, e2]
          exact hflip_ne
        have hm1ne : ((flipBit i (encodeNode r)).take 48).take 16 ++ keyBuf ++ valBuf ≠
            ckMsg r := by
          intro hc
          rw [List.append_assoc, hkv] at hc
          rw [htk48', htk16S] at hc
          have hck2 : ckMsg r = hdr16 r ++ (r.key ++ r.value) := by
            simp only [ckMsg, List.append_assoc]
          rw [hck2] at hc
          exact hbody_ne (List.append_cancel_left hc)
        exact .inr ⟨((flipBit i (encodeNode r)).take 48).take 16 ++ keyBuf ++ valBuf,
          ckMsg r, hm1ne, heq.symm.trans hst⟩
  refine ⟨by simpa using decodeNode_encode_append r [] ⟨hk, hv, hkl, hvl⟩, ?_, hA, hB⟩
  by_cases h1 : i < 32
  · exact .inl ⟨.badMagic, hA h1⟩
  · by_cases h2 : i < 128
    · exact hC (by omega) h2
    · by_cases h3 : i < 384
      · exact .inl ⟨.badChecksum, hB (by omega) h3⟩
      · exact hD (by omega)

/-- Witness for the amended C8 at the record `key = [107]`, `value = [118]`,
live, with bit 0 flipped (a magic-field flip). -/
theorem c8_roundtrip_flip_witness :
    RecWF ⟨[107], [118], false⟩ ∧ 0 < 8 * (encodeNode ⟨[107], [118], false⟩).length ∧
    (decodeNode (encodeNode ⟨[107], [118], false⟩) = .ok (⟨[107], [118], false⟩, []) ∧
    ((∃ e, decodeNode (flipBit 0 (encodeNode ⟨[107], [118], false⟩)) = .error e) ∨
      Sha256Collision) ∧
    (0 < 32 → decodeNode (flipBit 0 (encodeNode ⟨[107], [118], false⟩)) =
      .error .badMagic) ∧
    (128 ≤ 0 → 0 < 384 → decodeNode (flipBit 0 (encodeNode ⟨[107], [118], false⟩)) =
      .error .badChecksum)) :=
  ⟨by decide, by decide,
    c8_roundtrip_flip_error_or_collision ⟨[107], [118], false⟩ (by decide) 0 (by decide)⟩

end Ddb
